import Mathlib

/-!
Shallow embedding of the raliet transaction simulator's core pipeline
(`src-tauri/src/core/trace_formatter.rs`, `simulator_debug.rs`,
`transaction_simulator.rs`) and proofs about it.

Machine numerics: the formatter runs `U256::as_u128` (panics above `2^128`),
converts `u128 → f64` and divides by `1e18` / `1e9` in IEEE-754 binary64.
Both steps are correctly rounded (round to nearest, ties to even), so each is
modelled exactly as a rational-valued rounding function (`floatRound`): no
overflow or subnormals occur in the reachable range.  Rust's `{:.6}` / `{:.2}`
print the exact decimal value of the resulting double rounded half-to-even at
the given decimal place, modelled by `rnEven` on exact rationals.

Strings are modelled as their character lists; the parser's string searches
(`str::find`, `contains`, `trim`, `lines`) are re-implemented character by
character to mirror the Rust semantics.
-/

set_option maxRecDepth 1000000

namespace Raliet

attribute [local semireducible] Rat.mul Rat.add Rat.sub Rat.inv

/-! ### IEEE-754 binary64 arithmetic as exact rationals -/

/-- Round a rational to the nearest integer, ties to even (the IEEE-754
default rounding used both by f64 arithmetic and by Rust's fixed-precision
decimal formatting). -/
def rnEven (x : ℚ) : ℤ :=
  if x - (⌊x⌋ : ℚ) < 1 / 2 then ⌊x⌋
  else if 1 / 2 < x - (⌊x⌋ : ℚ) then ⌊x⌋ + 1
  else if ⌊x⌋ % 2 = 0 then ⌊x⌋ else ⌊x⌋ + 1

/-- Fuel-driven floor base-2 logarithm kernel (`lg2 fuel n = ⌊log₂ n⌋` once
`n ≤ fuel`); structural recursion on the fuel so the kernel can evaluate it. -/
def lg2 : Nat → Nat → Nat
  | 0, _ => 0
  | fuel + 1, n => if n < 2 then 0 else lg2 fuel (n / 2) + 1

/-- `⌊log₂ n⌋` for `1 ≤ n`. -/
def natLog2 (n : Nat) : Nat := lg2 n n

/-- Fuel-driven ceiling base-2 logarithm kernel. -/
def clg2 : Nat → Nat → Nat
  | 0, _ => 0
  | fuel + 1, m => if m ≤ 1 then 0 else clg2 fuel ((m + 1) / 2) + 1

/-- `⌈log₂ m⌉` for `1 ≤ m`. -/
def natClog2 (m : Nat) : Nat := clg2 m m

/-- `⌊log₂ q⌋` of a positive rational, the binary exponent of its leading
bit (characterized by `qlog2_spec`: `2 ^ qlog2 q ≤ q < 2 ^ (qlog2 q + 1)`). -/
def qlog2 (q : ℚ) : ℤ :=
  if 1 ≤ q then (natLog2 ⌊q⌋₊ : ℤ) else -(natClog2 ⌈q⁻¹⌉₊ : ℤ)

/-- The value of the binary64 float nearest to a positive rational `q`
(53 significant bits, round to nearest, ties to even), as an exact rational.
Faithful for every normal, non-overflowing magnitude, which covers all values
the formatter can produce. -/
def floatRound (q : ℚ) : ℚ :=
  if q ≤ 0 then 0
  else ((rnEven (q * (2 : ℚ) ^ (52 - qlog2 q)) : ℤ) : ℚ) * (2 : ℚ) ^ (qlog2 q - 52)

/-- `wei as f64 / 10^p` : the `u128 → f64` conversion followed by one
correctly rounded division by the (exactly representable) double `10^p`. -/
def f64DivPow10 (w : Nat) (p : Nat) : ℚ :=
  floatRound (floatRound (w : ℚ) / (10 : ℚ) ^ p)

/-- The integer printed by `{:.6}` for `wei as f64 / 1e18`, in micro-ether. -/
def displayedMicroEth (w : Nat) : ℤ := rnEven (f64DivPow10 w 18 * 10 ^ 6)

/-- The integer printed by `{:.2}` for `wei as f64 / 1e9`, in centi-gwei. -/
def displayedCentiGwei (w : Nat) : ℤ := rnEven (f64DivPow10 w 9 * 10 ^ 2)

/-! ### Decimal / hexadecimal rendering helpers -/

/-- The decimal digit character for `n % 10`. -/
def decDigit (n : Nat) : Char := Char.ofNat (48 + n % 10)

/-- Exactly six zero-padded decimal digits of `n % 10^6`. -/
def pad6 (n : Nat) : String :=
  ⟨[decDigit (n / 100000), decDigit (n / 10000), decDigit (n / 1000),
    decDigit (n / 100), decDigit (n / 10), decDigit n]⟩

/-- Rust `{:.6}` rendering of a non-negative value given in micro-units. -/
def fixed6 (n : ℤ) : String :=
  Nat.repr (n.toNat / 1000000) ++ "." ++ pad6 (n.toNat % 1000000)

/-- Rust `{:.2}` rendering of a non-negative value given in centi-units. -/
def fixed2 (n : ℤ) : String :=
  Nat.repr (n.toNat / 100) ++ "." ++ ⟨[decDigit (n.toNat / 10), decDigit n.toNat]⟩

/-- Lowercase hex digit character for `n % 16`. -/
def hexDigit (n : Nat) : Char :=
  if n % 16 < 10 then Char.ofNat (48 + n % 16) else Char.ofNat (87 + n % 16)

/-- `{:?}` of a fixed-width hash/address: `0x` plus `width` lowercase hex digits. -/
def hexFixed (width : Nat) (n : Nat) : String :=
  "0x" ++ ⟨(List.range width).map fun i => hexDigit (n / 16 ^ (width - 1 - i))⟩

/-- `{:?}` of an `H256` value. -/
def h256Hex (n : Nat) : String := hexFixed 64 n

/-- `{:?}` of an `H160` address. -/
def h160Hex (n : Nat) : String := hexFixed 40 n

/-- Two hex digits of one byte. -/
def byteHex (b : Nat) : String := ⟨[hexDigit (b / 16), hexDigit b]⟩

/-- `format!("0x{}", hex::encode(bytes))`. -/
def bytesHex (bs : List Nat) : String := "0x" ++ String.join (bs.map byteHex)

/-! ### `trace_formatter.rs`: numeric formatters -/

/-- `U256::as_u128`: panics (modelled as `none`) when the value needs more
than 128 bits. -/
def as_u128 (w : Nat) : Option Nat := if w < 2 ^ 128 then some w else none

/-- Body of `format_ether` on the narrowed `u128` value:
`let eth_value = wei.as_u128() as f64 / 1e18;` then the three-way branch on
`eth_value == 0.0` / `eth_value < 0.000001` (the f64 literal `0.000001` is the
double nearest `10^-6`). -/
def formatEtherU128 (wei : Nat) : String :=
  if f64DivPow10 wei 18 = 0 then "0 ETH"
  else if f64DivPow10 wei 18 < floatRound (1 / 10 ^ 6) then Nat.repr wei ++ " wei"
  else fixed6 (displayedMicroEth wei) ++ " ETH"

/-- `format_ether`, with the `as_u128` panic made explicit. -/
def format_ether (wei : Nat) : Option String := (as_u128 wei).map formatEtherU128

/-- Body of `format_gwei` on the narrowed `u128` value. -/
def formatGweiU128 (wei : Nat) : String := fixed2 (displayedCentiGwei wei) ++ " Gwei"

/-- `format_gwei`, with the `as_u128` panic made explicit. -/
def format_gwei (wei : Nat) : Option String := (as_u128 wei).map formatGweiU128

/-- `U256::saturating_mul`. -/
def u256SaturatingMul (a b : Nat) : Nat := min (a * b) (2 ^ 256 - 1)

/-! ### Data model (`ethers` types, fields the code reads) -/

/-- One receipt log entry. -/
structure Log where
  address : Nat
  topics : List Nat
  data : List Nat
deriving DecidableEq, Repr

/-- `ethers::types::Transaction`, restricted to the fields the formatter reads. -/
structure Transaction where
  hash : Nat
  from' : Nat
  to' : Option Nat
  value : Nat
  nonce : Nat
  gas : Nat
  gasPrice : Option Nat
  input : List Nat
deriving DecidableEq, Repr

/-- `ethers::types::TransactionReceipt`, restricted to the fields the code reads. -/
structure TransactionReceipt where
  status : Option Nat
  blockNumber : Option Nat
  gasUsed : Option Nat
  effectiveGasPrice : Option Nat
  logs : List Log
deriving DecidableEq, Repr

/-- `calculate_gas_cost`: `gas_used.saturating_mul(effective_gas_price)`
formatted as ether, or `"Unknown"` when either operand is missing. -/
def calculate_gas_cost (receipt : TransactionReceipt) : Option String :=
  match receipt.gasUsed, receipt.effectiveGasPrice with
  | some gas_used, some gas_price => format_ether (u256SaturatingMul gas_used gas_price)
  | _, _ => some "Unknown"

/-- `decode_event_name`: match `{:?}` of `topics[0]` against the two known
signatures, else a placeholder with the first 10 characters of the hex. -/
def decode_event_name (topics : List Nat) : String :=
  match topics with
  | [] => "Unknown Event"
  | t0 :: _ =>
    let topic0 := h256Hex t0
    if topic0 = "0xddf252ad1be2c89b69c2b068fc378daa952ba7f163c4a11628f55a4df523b3ef" then
      "Transfer(address,address,uint256)"
    else if topic0 = "0x8c5be1e5ebec7d5bd14f71427d1e84f3dd0314c0f7b2291e5b200ac8c7c3b925" then
      "Approval(address,address,uint256)"
    else "Event(" ++ ⟨topic0.data.take 10⟩ ++ "...)"

/-- One element of the `events` array in the report. -/
structure EventJson where
  index : Nat
  address : String
  name : String
  topics : List String
  data : String
deriving DecidableEq, Repr

/-- `format_events`. -/
def format_events (logs : List Log) : List EventJson :=
  logs.enum.map fun p =>
    { index := p.1
      address := h160Hex p.2.address
      name := decode_event_name p.2.topics
      topics := p.2.topics.map h256Hex
      data := bytesHex p.2.data }

/-! ### `parse_call_trace`: the call-trace parser -/

/-- Whitespace predicate used by `str::trim`. -/
def ws (c : Char) : Bool := c.isWhitespace

/-- `str::trim` on a character list. -/
def trimChars (l : List Char) : List Char := (l.dropWhile ws).rdropWhile ws

/-- The middle-child branch marker `├─`. -/
def midMarker : List Char := ['├', '─']

/-- The last-child branch marker `└─`. -/
def lastMarker : List Char := ['└', '─']

/-- `str::find(pattern)`: index of the first occurrence of `pat` as a
contiguous sublist. -/
def findSub (pat : List Char) : List Char → Option Nat
  | [] => if pat.isEmpty then some 0 else none
  | c :: rest =>
    if pat.isPrefixOf (c :: rest) then some 0
    else (findSub pat rest).map (· + 1)

/-- `str::contains(pattern)`. -/
def hasSub (pat : List Char) (l : List Char) : Bool := (findSub pat l).isSome

/-- `line.contains("├─") || line.contains("└─")`. -/
def is_call_start (l : List Char) : Bool := hasSub midMarker l || hasSub lastMarker l

/-- `line.find("├─").or_else(|| line.find("└─"))`. -/
def markerPos (l : List Char) : Option Nat :=
  (findSub midMarker l).orElse fun _ => findSub lastMarker l

/-- The `before_marker` slice of a call line. -/
def beforeMarker (l : List Char) : List Char :=
  match markerPos l with
  | some pos => l.take pos
  | none => []

/-- `before_marker.matches('│').count()`: the depth the parser assigns. -/
def code_depth (l : List Char) : Nat := (beforeMarker l).count '│'

/-- One parsed call node: nesting depth plus accumulated text. -/
structure CallNode where
  depth : Nat
  trace : String
deriving DecidableEq, Repr

/-- Parser loop state: emitted nodes, the open node's text, its depth. -/
structure ParseState where
  traces : List CallNode
  current : List Char
  depth : Nat
deriving DecidableEq, Repr

/-- Emit the currently open node, if any. -/
def flushNode (st : ParseState) : List CallNode :=
  if st.current.isEmpty then st.traces else st.traces ++ [⟨st.depth, ⟨st.current⟩⟩]

/-- One iteration of the `for line in lines` loop in `parse_call_trace`. -/
def parseStep (st : ParseState) (line : List Char) : ParseState :=
  if (trimChars line).isEmpty then st
  else if is_call_start line then
    { traces := flushNode st, current := trimChars line, depth := code_depth line }
  else if st.current.isEmpty then st
  else { st with current := st.current ++ '\n' :: trimChars line }

/-- The whole loop plus the final flush. -/
def parseLines (ls : List (List Char)) : List CallNode :=
  flushNode (ls.foldl parseStep ⟨[], [], 0⟩)

/-- Split a character list at every `'\n'` (keeping empty pieces). -/
def splitNl : List Char → List (List Char)
  | [] => [[]]
  | c :: rest =>
    if c = '\n' then [] :: splitNl rest
    else
      match splitNl rest with
      | [] => [[c]]
      | p :: ps => (c :: p) :: ps

/-- Strip one trailing `'\r'`. -/
def stripCr (l : List Char) : List Char := if l.getLast? = some '\r' then l.dropLast else l

/-- Drop the empty chunk produced by a trailing newline. -/
def dropTrailingEmpty (ls : List (List Char)) : List (List Char) :=
  if ls.getLast? = some ([] : List Char) then ls.dropLast else ls

/-- Rust `str::lines()`: split on `'\n'`, no extra line after a trailing
newline, each line stripped of one trailing `'\r'`. -/
def toLines (s : String) : List (List Char) := (dropTrailingEmpty (splitNl s.data)).map stripCr

/-- The json object `parse_call_trace` returns. -/
structure CallTraceJson where
  formatted : Bool
  calls : List CallNode
  raw : String
deriving DecidableEq, Repr

/-- `parse_call_trace`. -/
def parse_call_trace (output : String) : CallTraceJson :=
  { formatted := true, calls := parseLines (toLines output), raw := output }

/-! ### `format_tenderly_style`: the report assembler -/

/-- The `overview` section. -/
structure Overview where
  status : String
  transactionHash : String
  block : Option Nat
  timestamp : Option Nat
deriving DecidableEq, Repr

/-- The `transactionInfo` section. -/
structure TransactionInfoJson where
  from' : String
  to' : Option String
  value : String
  function : String
  nonce : String
deriving DecidableEq, Repr

/-- The `gasDetails` section. -/
structure GasDetails where
  gasLimit : String
  gasUsed : String
  gasPrice : Option String
  effectiveGasPrice : Option String
  totalCost : String
deriving DecidableEq, Repr

/-- The assembled report. -/
structure Report where
  overview : Overview
  transactionInfo : TransactionInfoJson
  gasDetails : GasDetails
  events : List EventJson
  callTrace : Option CallTraceJson
deriving DecidableEq, Repr

/-- `opt.map(|g| format(g))` where the inner format can panic: `none` models
the panic, `some none` a missing operand. -/
def optionMapPanic (f : Nat → Option String) : Option Nat → Option (Option String)
  | none => some none
  | some g => (f g).map some

/-- `format_tenderly_style`; `none` models a panic inside one of the numeric
formatters (value not fitting `u128`). -/
def format_tenderly_style (tx : Transaction) (receipt : TransactionReceipt)
    (cast_output : Option String) : Option Report := do
  let function_sig := if tx.input.length ≥ 4 then bytesHex (tx.input.take 4) else "0x"
  let value ← format_ether tx.value
  let gasPrice ← optionMapPanic format_gwei tx.gasPrice
  let effectiveGasPrice ← optionMapPanic format_gwei receipt.effectiveGasPrice
  let totalCost ← calculate_gas_cost receipt
  some
    { overview :=
        { status := if receipt.status = some 1 then "✓ Success" else "✗ Failed"
          transactionHash := h256Hex tx.hash
          block := receipt.blockNumber
          timestamp := receipt.blockNumber }
      transactionInfo :=
        { from' := h160Hex tx.from'
          to' := tx.to'.map h160Hex
          value := value
          function := function_sig
          nonce := Nat.repr tx.nonce }
      gasDetails :=
        { gasLimit := Nat.repr tx.gas
          gasUsed := Nat.repr (receipt.gasUsed.getD 0)
          gasPrice := gasPrice
          effectiveGasPrice := effectiveGasPrice
          totalCost := totalCost }
      events := format_events receipt.logs
      callTrace := cast_output.map parse_call_trace }

/-! ### `simulator_debug.rs`: the trace orchestrator -/

/-- Outcome of invoking the external `cast` command. -/
inductive CastOutcome where
  | binaryMissing
  | timeout
  | execError (msg : String)
  | completed (stdout stderr : String) (success : Bool)
deriving DecidableEq, Repr

/-- The json value `get_cast_trace_quick` returns on the `Ok` path. -/
structure CastJson where
  stdout : String
  stderr : String
  success : Bool
deriving DecidableEq, Repr

/-- `get_cast_trace_quick`: the missing-binary, timeout and spawn-failure
cases return `Err`; a completed command returns `Ok` with both captured
streams and the exit status, even when the exit status is non-zero. -/
def get_cast_trace_quick (outcome : CastOutcome) : Except String CastJson :=
  match outcome with
  | .binaryMissing => .error "Cast binary not found"
  | .timeout => .error "Cast execution timed out"
  | .execError e => .error ("Failed to execute cast: " ++ e)
  | .completed stdout stderr ok => .ok ⟨stdout, stderr, ok⟩

/-- The environment one `trace_transaction` request runs against: the results
the forked backend and the external command would produce. -/
structure TraceEnv where
  receiptFetch : Except String (Option TransactionReceipt)
  txFetch : Except String (Option Transaction)
  cast : CastOutcome

/-- `trace_transaction` control flow.  The spawned `AnvilInstance` is a local
value whose `Drop` implementation kills the anvil process, so Rust runs the
teardown exactly once on every path out of the function (`?` early returns,
panic unwinding, success); the second component counts those teardowns path by
path. -/
def trace_transaction (env : TraceEnv) : Except String Report × Nat :=
  match env.receiptFetch with
  | .error e => (.error e, 1)
  | .ok none => (.error "Transaction not found", 1)
  | .ok (some tx_receipt) =>
    match env.txFetch with
    | .error e => (.error e, 1)
    | .ok none => (.error "Transaction details not found", 1)
    | .ok (some tx_details) =>
      let cast_trace : Option String :=
        match get_cast_trace_quick env.cast with
        | .ok trace_output => some trace_output.stdout
        | .error _ => none
      match format_tenderly_style tx_details tx_receipt cast_trace with
      | some trace => (.ok trace, 1)
      | none => (.error "panicked while formatting", 1)

/-! ### `transaction_simulator.rs`: the single-shot simulation helper -/

/-- Process lifecycle events of `TransactionSimulator::simulate_transaction`. -/
inductive SimEvent where
  | spawnAnvil
  | teardownAnvil
deriving DecidableEq, BEq, Repr

/-- `TransactionSimulator::simulate_transaction`: locates the binaries, spawns
anvil through `tokio::process::Command` (whose `Child` handle does **not** kill
the process when dropped — no `kill_on_drop`), and returns the placeholder
string.  No code path kills the spawned process, so the emitted event list of
a successful run contains a spawn and no teardown. -/
def TransactionSimulator.simulate_transaction
    (locateResult : Except String Unit) (spawnOk : Bool) :
    Except String String × List SimEvent :=
  match locateResult with
  | .error e => (.error e, [])
  | .ok _ =>
    if spawnOk then (.ok "Transaction trace placeholder", [.spawnAnvil])
    else (.error "Failed to start anvil", [])

/-! ### Comparator definitions written from the claims' words -/

/-- Position of the first branch marker of either kind (claim C6's words:
"the first branch marker on that line"). -/
def firstMarkerPos (l : List Char) : Option Nat :=
  match findSub midMarker l, findSub lastMarker l with
  | some a, some b => some (min a b)
  | some a, none => some a
  | none, some b => some b
  | none, none => none

/-- Depth as claim C6 states it: the count of `'│'` before the first branch
marker of either kind. -/
def spec_depth (l : List Char) : Nat :=
  (match firstMarkerPos l with
   | some pos => l.take pos
   | none => ([] : List Char)).count '│'

/-- Depth as amended: the count of `'│'` before the first `├─` when the line
contains one, otherwise before the first `└─`. -/
def amended_depth (l : List Char) : Nat :=
  (match findSub midMarker l with
   | some pos => l.take pos
   | none =>
     match findSub lastMarker l with
     | some pos => l.take pos
     | none => ([] : List Char)).count '│'

/-- Claim C9's reconstruction: re-indent each node's text with `depth`
vertical-continuation glyphs and a branch marker (the last-child marker). -/
def reindentLastMarker (n : CallNode) : List Char :=
  List.replicate n.depth '│' ++ '└' :: '─' :: ' ' :: n.trace.data

/-- Join reconstructed node texts into one text. -/
def joinNl : List (List Char) → List Char
  | [] => []
  | [l] => l
  | l :: ls => l ++ '\n' :: joinNl ls

/-- The reconstructed text of claim C9 (last-child marker variant). -/
def reconstructLastMarker (ns : List CallNode) : String :=
  ⟨joinNl (ns.map reindentLastMarker)⟩

/-- Amended reconstruction: the middle-child marker, which the parser's
`find("├─").or_else(find("└─"))` always locates first. -/
def reindentMidMarker (n : CallNode) : List Char :=
  List.replicate n.depth '│' ++ '├' :: '─' :: ' ' :: n.trace.data

/-- The reconstructed text of the amended claim C9. -/
def reconstructMidMarker (ns : List CallNode) : String :=
  ⟨joinNl (ns.map reindentMidMarker)⟩

/-- Claim C5's comparator: the ether string computed with exact
arbitrary-precision arithmetic (same branch thresholds, same surface shape,
rounded half-to-even at the 6th decimal). -/
def exactMicroEth (wei : Nat) : ℤ := rnEven ((wei : ℚ) / 10 ^ 12)

/-- Exact-arithmetic centi-gwei displayed value. -/
def exactCentiGwei (wei : Nat) : ℤ := rnEven ((wei : ℚ) / 10 ^ 7)

/-- Exact-arithmetic ether rendering, claim C5's reference. -/
def exactEtherString (wei : Nat) : String :=
  if (wei : ℚ) / 10 ^ 18 = 0 then "0 ETH"
  else if (wei : ℚ) / 10 ^ 18 < 1 / 10 ^ 6 then Nat.repr wei ++ " wei"
  else fixed6 (exactMicroEth wei) ++ " ETH"

/-- First line of a (possibly multi-line) accumulated node text. -/
def firstLine (l : List Char) : List Char := l.takeWhile (fun c => c != '\n')

/-- Shape required by the claims' "exactly 6 decimal digits and the ETH
suffix": an integer part, a dot, six decimal digit characters, `" ETH"`. -/
def sixDecimalEthString (s : String) : Prop :=
  ∃ intPart frac : String,
    s = intPart ++ "." ++ frac ++ " ETH" ∧ frac.length = 6 ∧ ∀ c ∈ frac.data, c.isDigit = true

/-! ### Concrete fixtures used by the closed theorems -/

/-- The transaction of the end-to-end scenario: value one ether, one-gwei gas
price, 21000 gas. -/
def c4tx : Transaction :=
  { hash := 0xaaaaaaaaaaaaaaaaaaaaaaaaaaaaaaaaaaaaaaaaaaaaaaaaaaaaaaaaaaaaaaaa
    from' := 0x1111111111111111111111111111111111111111
    to' := some 0x2222222222222222222222222222222222222222
    value := 10 ^ 18
    nonce := 5
    gas := 21000
    gasPrice := some (10 ^ 9)
    input := [] }

/-- The receipt of the end-to-end scenario: success status, gasUsed 21000,
effectiveGasPrice 1 gwei, one Transfer log. -/
def c4receipt : TransactionReceipt :=
  { status := some 1
    blockNumber := some 12345
    gasUsed := some 21000
    effectiveGasPrice := some (10 ^ 9)
    logs :=
      [{ address := 0x3333333333333333333333333333333333333333
         topics := [0xddf252ad1be2c89b69c2b068fc378daa952ba7f163c4a11628f55a4df523b3ef]
         data := [] }] }

/-- The report assembled for the C2/C4 fixture without a call trace. -/
def c2report : Report :=
  (format_tenderly_style c4tx c4receipt none).getD
    ⟨⟨"", "", none, none⟩, ⟨"", none, "", "", ""⟩, ⟨"", "", none, none, ""⟩, [], none⟩

/-- A request environment whose trace-capture command times out. -/
def c2envTimeout : TraceEnv :=
  { receiptFetch := .ok (some c4receipt), txFetch := .ok (some c4tx), cast := .timeout }

/-- A request environment whose trace-capture command exits with non-zero
status after printing some output. -/
def c2envNonZeroExit : TraceEnv :=
  { receiptFetch := .ok (some c4receipt), txFetch := .ok (some c4tx)
    cast := .completed "├─ [21000] 0x2222…::transfer()\n└─ ← ()" "error: revert" false }

/-- The two-call input of the idempotence counterexample. -/
def c9input : String := "├─ A\n│   ├─ B"

/-! ## Lemmas about the rounding primitives -/

theorem lg2_spec (fuel : Nat) :
    ∀ n, 1 ≤ n → n ≤ fuel → 2 ^ lg2 fuel n ≤ n ∧ n < 2 ^ (lg2 fuel n + 1) := by
  induction fuel with
  | zero => intro n h1 h2; omega
  | succ fuel ih =>
    intro n h1 h2
    by_cases hn : n < 2
    · have h0 : lg2 (fuel + 1) n = 0 := by simp [lg2, hn]
      rw [h0]; norm_num; omega
    · have hd1 : 1 ≤ n / 2 := by omega
      have hd2 : n / 2 ≤ fuel := by omega
      obtain ⟨ha, hb⟩ := ih (n / 2) hd1 hd2
      have hstep : lg2 (fuel + 1) n = lg2 fuel (n / 2) + 1 := by simp [lg2, hn]
      rw [pow_succ] at hb
      rw [hstep, pow_succ, pow_succ, pow_succ]
      omega

theorem natLog2_spec {n : Nat} (h : 1 ≤ n) : 2 ^ natLog2 n ≤ n ∧ n < 2 ^ (natLog2 n + 1) :=
  lg2_spec n n h le_rfl

theorem clg2_spec (fuel : Nat) :
    ∀ m, m ≤ fuel → m ≤ 2 ^ clg2 fuel m ∧ (2 ≤ m → ∃ j, clg2 fuel m = j + 1 ∧ 2 ^ j < m) := by
  induction fuel with
  | zero =>
    intro m h2
    have h0 : clg2 0 m = 0 := rfl
    rw [h0]
    constructor
    · norm_num; omega
    · intro hc; exact absurd hc (by omega)
  | succ fuel ih =>
    intro m h2
    by_cases hm : m ≤ 1
    · have h0 : clg2 (fuel + 1) m = 0 := by simp [clg2, hm]
      rw [h0]
      constructor
      · norm_num; omega
      · intro hc; exact absurd hc (by omega)
    · have hd2 : (m + 1) / 2 ≤ fuel := by omega
      obtain ⟨ha, hb⟩ := ih ((m + 1) / 2) hd2
      have hstep : clg2 (fuel + 1) m = clg2 fuel ((m + 1) / 2) + 1 := by simp [clg2, hm]
      rw [hstep]
      constructor
      · rw [pow_succ]; omega
      · intro _
        refine ⟨clg2 fuel ((m + 1) / 2), rfl, ?_⟩
        by_cases hm2 : 2 ≤ (m + 1) / 2
        · obtain ⟨j, hj, hjlt⟩ := hb hm2
          rw [hj, pow_succ]
          omega
        · have hm1 : (m + 1) / 2 = 1 := by omega
          have hc : clg2 fuel ((m + 1) / 2) = 0 := by
            rw [hm1]; cases fuel <;> simp [clg2]
          rw [hc]
          omega

theorem natClog2_spec {m : Nat} : m ≤ 2 ^ natClog2 m ∧ (2 ≤ m → ∃ j, natClog2 m = j + 1 ∧ 2 ^ j < m) :=
  clg2_spec m m le_rfl

/-- Cast form of natural powers of two. -/
theorem zpow_natCast_two (k : ℕ) : (2 : ℚ) ^ (k : ℤ) = ((2 ^ k : ℕ) : ℚ) := by
  rw [zpow_natCast]; norm_cast

/-- Cast form of integer powers of two. -/
theorem intCast_two_pow (k : ℕ) : (((2 : ℤ) ^ k : ℤ) : ℚ) = (2 : ℚ) ^ (k : ℤ) := by
  rw [zpow_natCast]; norm_cast

/-- `qlog2` is the floor base-2 logarithm. -/
theorem qlog2_spec {q : ℚ} (hq : 0 < q) :
    (2 : ℚ) ^ qlog2 q ≤ q ∧ q < (2 : ℚ) ^ (qlog2 q + 1) := by
  unfold qlog2
  split
  · rename_i h1
    have hfl : 1 ≤ ⌊q⌋₊ := Nat.le_floor (by exact_mod_cast h1)
    obtain ⟨hl, hr⟩ := natLog2_spec hfl
    constructor
    · calc (2 : ℚ) ^ (natLog2 ⌊q⌋₊ : ℤ) = ((2 ^ natLog2 ⌊q⌋₊ : ℕ) : ℚ) := zpow_natCast_two _
        _ ≤ (⌊q⌋₊ : ℚ) := by exact_mod_cast hl
        _ ≤ q := Nat.floor_le hq.le
    · have h2 : q < (⌊q⌋₊ : ℚ) + 1 := Nat.lt_floor_add_one q
      have h3 : (⌊q⌋₊ : ℚ) + 1 ≤ ((2 ^ (natLog2 ⌊q⌋₊ + 1) : ℕ) : ℚ) := by exact_mod_cast hr
      have h4 : ((natLog2 ⌊q⌋₊ : ℤ)) + 1 = ((natLog2 ⌊q⌋₊ + 1 : ℕ) : ℤ) := by push_cast; ring
      rw [h4, zpow_natCast_two]
      linarith
  · rename_i h1
    push_neg at h1
    have hqinv : (0 : ℚ) < q⁻¹ := inv_pos.mpr hq
    have hinv : 1 < q⁻¹ := by
      have hc := mul_inv_cancel₀ (ne_of_gt hq)
      nlinarith
    have hc2 : 2 ≤ ⌈q⁻¹⌉₊ := by
      have := Nat.lt_ceil.mpr (show ((1 : ℕ) : ℚ) < q⁻¹ by exact_mod_cast hinv)
      omega
    obtain ⟨hK, hmin⟩ := natClog2_spec (m := ⌈q⁻¹⌉₊)
    obtain ⟨j, hj, hjlt⟩ := hmin hc2
    have hKpos : (0 : ℚ) < ((2 ^ natClog2 ⌈q⁻¹⌉₊ : ℕ) : ℚ) := by positivity
    constructor
    · have h1' : q⁻¹ ≤ ((2 ^ natClog2 ⌈q⁻¹⌉₊ : ℕ) : ℚ) :=
        le_trans (Nat.le_ceil q⁻¹) (by exact_mod_cast hK)
      have h2' : ((2 ^ natClog2 ⌈q⁻¹⌉₊ : ℕ) : ℚ)⁻¹ ≤ q := by
        have h3 := inv_anti₀ hqinv h1'
        rwa [inv_inv] at h3
      calc (2 : ℚ) ^ (-(natClog2 ⌈q⁻¹⌉₊ : ℤ)) = ((2 ^ natClog2 ⌈q⁻¹⌉₊ : ℕ) : ℚ)⁻¹ := by
            rw [zpow_neg, zpow_natCast_two]
        _ ≤ q := h2'
    · have hjq : ((2 ^ j : ℕ) : ℚ) < q⁻¹ := by
        by_contra hcon
        push_neg at hcon
        have := Nat.ceil_le.mpr hcon
        omega
      have hjpos : (0 : ℚ) < ((2 ^ j : ℕ) : ℚ) := by positivity
      have h2' : q < ((2 ^ j : ℕ) : ℚ)⁻¹ := by
        have h3 := inv_strictAnti₀ hjpos hjq
        rwa [inv_inv] at h3
      have hexp : -(natClog2 ⌈q⁻¹⌉₊ : ℤ) + 1 = -(j : ℤ) := by rw [hj]; push_cast; ring
      rw [hexp, zpow_neg, zpow_natCast_two]
      exact h2'

theorem qlog2_mono {a b : ℚ} (ha : 0 < a) (hab : a ≤ b) : qlog2 a ≤ qlog2 b := by
  have hb : 0 < b := lt_of_lt_of_le ha hab
  have sa := qlog2_spec ha
  have sb := qlog2_spec hb
  by_contra hcon
  push_neg at hcon
  have h1 : qlog2 b + 1 ≤ qlog2 a := hcon
  have h2 : (2 : ℚ) ^ (qlog2 b + 1) ≤ (2 : ℚ) ^ qlog2 a :=
    zpow_le_zpow_right₀ one_le_two h1
  linarith [sa.1, sb.2]

/-! ### `rnEven` -/

theorem rnEven_intCast (n : ℤ) : rnEven (n : ℚ) = n := by
  simp [rnEven]

theorem abs_rnEven_sub_le (x : ℚ) : |((rnEven x : ℤ) : ℚ) - x| ≤ 1 / 2 := by
  have h0 : (⌊x⌋ : ℚ) ≤ x := Int.floor_le x
  have h1 : x < ⌊x⌋ + 1 := Int.lt_floor_add_one x
  unfold rnEven
  split
  · rename_i h
    rw [abs_le]; constructor <;> push_cast <;> linarith
  · rename_i h
    push_neg at h
    split
    · rename_i h2
      rw [abs_le]; constructor <;> push_cast <;> linarith
    · rename_i h2
      push_neg at h2
      have h3 : x - ⌊x⌋ = 1 / 2 := le_antisymm h2 h
      split <;> (rw [abs_le]; constructor <;> push_cast <;> linarith)

theorem floor_le_rnEven (x : ℚ) : ⌊x⌋ ≤ rnEven x := by
  unfold rnEven
  split
  · exact le_refl _
  · split
    · omega
    · split <;> omega

theorem rnEven_mono {a b : ℚ} (hab : a ≤ b) : rnEven a ≤ rnEven b := by
  rcases eq_or_lt_of_le hab with rfl | h
  · exact le_refl _
  · have ha := abs_rnEven_sub_le a
    have hb := abs_rnEven_sub_le b
    rw [abs_le] at ha hb
    have hq : ((rnEven a : ℤ) : ℚ) < ((rnEven b : ℤ) : ℚ) + 1 := by linarith [ha.2, hb.1]
    have : rnEven a < rnEven b + 1 := by exact_mod_cast hq
    omega

theorem abs_rnEven_diff_le {a b : ℚ} (h : |a - b| < 1 / 2) : |rnEven a - rnEven b| ≤ 1 := by
  have ha := abs_rnEven_sub_le a
  have hb := abs_rnEven_sub_le b
  rw [abs_le] at ha hb
  rw [abs_lt] at h
  have h2 : |rnEven a - rnEven b| < 2 := by
    have h3 : |((rnEven a - rnEven b : ℤ) : ℚ)| < 2 := by
      push_cast
      rw [abs_lt]
      constructor <;> linarith [ha.1, ha.2, hb.1, hb.2, h.1, h.2]
    exact_mod_cast h3
  omega

/-! ### `floatRound` -/

theorem floatRound_nonpos {q : ℚ} (h : q ≤ 0) : floatRound q = 0 := by
  simp [floatRound, h]

theorem floatRound_of_pos {q : ℚ} (hq : 0 < q) :
    floatRound q = ((rnEven (q * (2 : ℚ) ^ (52 - qlog2 q)) : ℤ) : ℚ) * (2 : ℚ) ^ (qlog2 q - 52) := by
  rw [floatRound, if_neg (not_le.mpr hq)]

theorem floatRound_scaled {q : ℚ} (hq : 0 < q) :
    (2 : ℚ) ^ (52 : ℤ) ≤ q * (2 : ℚ) ^ (52 - qlog2 q) ∧
      q * (2 : ℚ) ^ (52 - qlog2 q) < (2 : ℚ) ^ (53 : ℤ) := by
  obtain ⟨h1, h2⟩ := qlog2_spec hq
  have hp : (0 : ℚ) < (2 : ℚ) ^ (52 - qlog2 q) := zpow_pos (by norm_num) _
  constructor
  · have he : (2 : ℚ) ^ (52 : ℤ) = (2 : ℚ) ^ qlog2 q * (2 : ℚ) ^ (52 - qlog2 q) := by
      rw [← zpow_add₀ (by norm_num : (2 : ℚ) ≠ 0)]; congr 1; ring
    rw [he]
    exact mul_le_mul_of_nonneg_right h1 hp.le
  · have he : (2 : ℚ) ^ (53 : ℤ) = (2 : ℚ) ^ (qlog2 q + 1) * (2 : ℚ) ^ (52 - qlog2 q) := by
      rw [← zpow_add₀ (by norm_num : (2 : ℚ) ≠ 0)]; congr 1; ring
    rw [he]
    exact mul_lt_mul_of_pos_right h2 hp

theorem q_eq_scaled {q : ℚ} :
    q * (2 : ℚ) ^ (52 - qlog2 q) * (2 : ℚ) ^ (qlog2 q - 52) = q := by
  rw [mul_assoc, ← zpow_add₀ (by norm_num : (2 : ℚ) ≠ 0)]
  norm_num

theorem floatRound_pos {q : ℚ} (hq : 0 < q) : 0 < floatRound q := by
  rw [floatRound_of_pos hq]
  have hs := (floatRound_scaled hq).1
  have hfl : (0 : ℤ) < ⌊q * (2 : ℚ) ^ (52 - qlog2 q)⌋ := by
    apply Int.floor_pos.mpr
    calc (1 : ℚ) ≤ (2 : ℚ) ^ (52 : ℤ) := by norm_num
      _ ≤ _ := hs
  have hm : (0 : ℤ) < rnEven (q * (2 : ℚ) ^ (52 - qlog2 q)) :=
    lt_of_lt_of_le hfl (floor_le_rnEven _)
  have hp : (0 : ℚ) < (2 : ℚ) ^ (qlog2 q - 52) := zpow_pos (by norm_num) _
  exact mul_pos (by exact_mod_cast hm) hp

theorem abs_floatRound_sub_le {q : ℚ} (hq : 0 < q) : |floatRound q - q| ≤ q / 2 ^ 53 := by
  rw [floatRound_of_pos hq]
  have habs := abs_rnEven_sub_le (q * (2 : ℚ) ^ (52 - qlog2 q))
  have hp : (0 : ℚ) < (2 : ℚ) ^ (qlog2 q - 52) := zpow_pos (by norm_num) _
  have hq1 := (qlog2_spec hq).1
  have key : ((rnEven (q * (2 : ℚ) ^ (52 - qlog2 q)) : ℤ) : ℚ) * (2 : ℚ) ^ (qlog2 q - 52) - q
      = (((rnEven (q * (2 : ℚ) ^ (52 - qlog2 q)) : ℤ) : ℚ) - q * (2 : ℚ) ^ (52 - qlog2 q)) *
          (2 : ℚ) ^ (qlog2 q - 52) := by
    rw [sub_mul, q_eq_scaled]
  rw [key, abs_mul, abs_of_pos hp]
  have step1 : |((rnEven (q * (2 : ℚ) ^ (52 - qlog2 q)) : ℤ) : ℚ) - q * (2 : ℚ) ^ (52 - qlog2 q)| *
      (2 : ℚ) ^ (qlog2 q - 52) ≤ (1 / 2) * (2 : ℚ) ^ (qlog2 q - 52) :=
    mul_le_mul_of_nonneg_right habs hp.le
  refine le_trans step1 ?_
  rw [le_div_iff (by positivity)]
  have he : 1 / 2 * (2 : ℚ) ^ (qlog2 q - 52) * (2 : ℚ) ^ (53 : ℕ) = (2 : ℚ) ^ qlog2 q := by
    rw [show ((2 : ℚ) ^ (53 : ℕ)) = (2 : ℚ) ^ (53 : ℤ) by norm_num]
    rw [mul_assoc, ← zpow_add₀ (by norm_num : (2 : ℚ) ≠ 0)]
    rw [show qlog2 q - 52 + 53 = qlog2 q + 1 by ring]
    rw [zpow_add₀ (by norm_num : (2 : ℚ) ≠ 0), zpow_one]
    ring
  rw [he]
  exact hq1

theorem floatRound_mono {a b : ℚ} (ha : 0 < a) (hab : a ≤ b) : floatRound a ≤ floatRound b := by
  have hb : 0 < b := lt_of_lt_of_le ha hab
  have hlog : qlog2 a ≤ qlog2 b := qlog2_mono ha hab
  rcases eq_or_lt_of_le hlog with heq | hlt
  · rw [floatRound_of_pos ha, floatRound_of_pos hb, ← heq]
    have hs : a * (2 : ℚ) ^ (52 - qlog2 a) ≤ b * (2 : ℚ) ^ (52 - qlog2 a) :=
      mul_le_mul_of_nonneg_right hab (zpow_pos (by norm_num) _).le
    have hm := rnEven_mono hs
    exact mul_le_mul_of_nonneg_right (by exact_mod_cast hm) (zpow_pos (by norm_num : (0:ℚ) < 2) _).le
  · have hub : floatRound a ≤ (2 : ℚ) ^ (qlog2 a + 1) := by
      rw [floatRound_of_pos ha]
      have hs2 := (floatRound_scaled ha).2
      have habs := abs_rnEven_sub_le (a * (2 : ℚ) ^ (52 - qlog2 a))
      rw [abs_le] at habs
      have hmq : ((rnEven (a * (2 : ℚ) ^ (52 - qlog2 a)) : ℤ) : ℚ) < (2 : ℚ) ^ (53 : ℤ) + 1 := by
        linarith [habs.2]
      have hm : rnEven (a * (2 : ℚ) ^ (52 - qlog2 a)) ≤ 2 ^ 53 := by
        have h1 : ((rnEven (a * (2 : ℚ) ^ (52 - qlog2 a)) : ℤ) : ℚ) < ((2 ^ 53 + 1 : ℤ) : ℚ) := by
          push_cast
          have : ((2 : ℚ) ^ (53 : ℤ)) = 2 ^ (53 : ℕ) := by norm_num
          linarith [hmq]
        have h2 : rnEven (a * (2 : ℚ) ^ (52 - qlog2 a)) < 2 ^ 53 + 1 := by exact_mod_cast h1
        omega
      have hp : (0 : ℚ) < (2 : ℚ) ^ (qlog2 a - 52) := zpow_pos (by norm_num) _
      calc ((rnEven (a * (2 : ℚ) ^ (52 - qlog2 a)) : ℤ) : ℚ) * (2 : ℚ) ^ (qlog2 a - 52)
          ≤ ((2 ^ 53 : ℤ) : ℚ) * (2 : ℚ) ^ (qlog2 a - 52) :=
            mul_le_mul_of_nonneg_right (by exact_mod_cast hm) hp.le
        _ = (2 : ℚ) ^ (qlog2 a + 1) := by
            rw [intCast_two_pow 53, ← zpow_add₀ (by norm_num : (2 : ℚ) ≠ 0)]
            congr 1; ring
    have hlb : (2 : ℚ) ^ (qlog2 b) ≤ floatRound b := by
      rw [floatRound_of_pos hb]
      have hs1 := (floatRound_scaled hb).1
      have hfl : (2 ^ 52 : ℤ) ≤ ⌊b * (2 : ℚ) ^ (52 - qlog2 b)⌋ := by
        apply Int.le_floor.mpr
        calc ((2 ^ 52 : ℤ) : ℚ) = (2 : ℚ) ^ (52 : ℤ) := by push_cast; norm_num
          _ ≤ _ := hs1
      have hm : (2 ^ 52 : ℤ) ≤ rnEven (b * (2 : ℚ) ^ (52 - qlog2 b)) :=
        le_trans hfl (floor_le_rnEven _)
      have hp : (0 : ℚ) < (2 : ℚ) ^ (qlog2 b - 52) := zpow_pos (by norm_num) _
      calc (2 : ℚ) ^ qlog2 b = ((2 ^ 52 : ℤ) : ℚ) * (2 : ℚ) ^ (qlog2 b - 52) := by
            rw [intCast_two_pow 52, ← zpow_add₀ (by norm_num : (2 : ℚ) ≠ 0)]
            congr 1; ring
        _ ≤ _ := mul_le_mul_of_nonneg_right (by exact_mod_cast hm) hp.le
    have hstep : (2 : ℚ) ^ (qlog2 a + 1) ≤ (2 : ℚ) ^ qlog2 b :=
      zpow_le_zpow_right₀ one_le_two (by omega)
    linarith

theorem floatRound_natCast_eq {w : ℕ} (hw : w < 2 ^ 53) : floatRound (w : ℚ) = w := by
  rcases Nat.eq_zero_or_pos w with rfl | hpos
  · simp [floatRound]
  · have hq : (0 : ℚ) < w := by exact_mod_cast hpos
    rw [floatRound_of_pos hq]
    have hL : qlog2 (w : ℚ) ≤ 52 := by
      by_contra hcon
      push_neg at hcon
      have h53 : (53 : ℤ) ≤ qlog2 (w : ℚ) := hcon
      have := (qlog2_spec hq).1
      have h2 : (2 : ℚ) ^ (53 : ℤ) ≤ (2 : ℚ) ^ qlog2 (w : ℚ) :=
        zpow_le_zpow_right₀ one_le_two h53
      have h3 : ((2 ^ 53 : ℕ) : ℚ) ≤ (w : ℚ) := by
        calc ((2 ^ 53 : ℕ) : ℚ) = (2 : ℚ) ^ (53 : ℤ) := (zpow_natCast_two 53).symm
          _ ≤ _ := h2
          _ ≤ _ := this
      have : (2 : ℕ) ^ 53 ≤ w := by exact_mod_cast h3
      omega
    have hL0 : 0 ≤ 52 - qlog2 (w : ℚ) := by omega
    set k := (52 - qlog2 (w : ℚ)).toNat with hk
    have hk' : (52 - qlog2 (w : ℚ)) = (k : ℤ) := (Int.toNat_of_nonneg hL0).symm
    have hscast : (w : ℚ) * (2 : ℚ) ^ (52 - qlog2 (w : ℚ)) = ((w * 2 ^ k : ℕ) : ℚ) := by
      rw [hk', zpow_natCast]
      push_cast
      ring
    have hrn : rnEven ((w : ℚ) * (2 : ℚ) ^ (52 - qlog2 (w : ℚ))) = ((w * 2 ^ k : ℕ) : ℤ) := by
      rw [hscast]
      rw [show (((w * 2 ^ k : ℕ) : ℚ)) = (((w * 2 ^ k : ℕ) : ℤ) : ℚ) by push_cast; ring]
      exact rnEven_intCast _
    rw [hrn]
    have hexp : (2 : ℚ) ^ (qlog2 (w : ℚ) - 52) = ((2 : ℚ) ^ (k : ℤ))⁻¹ := by
      rw [← zpow_neg]
      congr 1
      omega
    rw [hexp, zpow_natCast]
    push_cast
    have h2k : ((2 : ℚ) ^ k) ≠ 0 := by positivity
    field_simp

/-! ### The formatter's numeric pipeline -/

theorem f64DivPow10_zero (p : ℕ) : f64DivPow10 0 p = 0 := by
  unfold f64DivPow10
  rw [show ((0 : ℕ) : ℚ) = 0 by norm_num, floatRound_nonpos (le_refl 0), zero_div,
    floatRound_nonpos (le_refl 0)]

theorem f64DivPow10_pos {w p : ℕ} (hw : 0 < w) : 0 < f64DivPow10 w p := by
  unfold f64DivPow10
  exact floatRound_pos (div_pos (floatRound_pos (by exact_mod_cast hw)) (by positivity))

theorem f64DivPow10_mono {a b : ℕ} (p : ℕ) (ha : 0 < a) (hab : a ≤ b) :
    f64DivPow10 a p ≤ f64DivPow10 b p := by
  unfold f64DivPow10
  have h1 : floatRound ((a : ℚ)) ≤ floatRound ((b : ℚ)) :=
    floatRound_mono (by exact_mod_cast ha) (by exact_mod_cast hab)
  have h0 : 0 < floatRound ((a : ℚ)) := floatRound_pos (by exact_mod_cast ha)
  refine floatRound_mono (div_pos h0 (by positivity)) ?_
  gcongr

theorem microThreshold_pos : (0 : ℚ) < floatRound (1 / 10 ^ 6) :=
  floatRound_pos (by norm_num)

theorem belowThreshold_lt :
    floatRound ((999999999999 : ℚ) / 10 ^ 18) < floatRound (1 / 10 ^ 6) := by decide

theorem f64DivPow10_lt_threshold {w : ℕ} (h1 : 0 < w) (h2 : w < 10 ^ 12) :
    f64DivPow10 w 18 < floatRound (1 / 10 ^ 6) := by
  have hmono : f64DivPow10 w 18 ≤ f64DivPow10 999999999999 18 :=
    f64DivPow10_mono 18 h1 (by omega)
  have hexact : f64DivPow10 999999999999 18 = floatRound ((999999999999 : ℚ) / 10 ^ 18) := by
    unfold f64DivPow10
    rw [floatRound_natCast_eq (by norm_num)]
    norm_num
  rw [hexact] at hmono
  exact lt_of_le_of_lt hmono belowThreshold_lt

theorem threshold_le_f64DivPow10 {w : ℕ} (h : 10 ^ 12 ≤ w) :
    floatRound (1 / 10 ^ 6) ≤ f64DivPow10 w 18 := by
  have hbase : f64DivPow10 (10 ^ 12) 18 = floatRound (1 / 10 ^ 6) := by
    unfold f64DivPow10
    rw [floatRound_natCast_eq (by norm_num)]
    congr 1
  rw [← hbase]
  exact f64DivPow10_mono 18 (by norm_num) h

theorem formatEtherU128_eq_wei {w : ℕ} (h1 : 0 < w) (h2 : w < 10 ^ 12) :
    formatEtherU128 w = Nat.repr w ++ " wei" := by
  unfold formatEtherU128
  rw [if_neg (ne_of_gt (f64DivPow10_pos h1)), if_pos (f64DivPow10_lt_threshold h1 h2)]

theorem formatEtherU128_eq_eth {w : ℕ} (h : 10 ^ 12 ≤ w) :
    formatEtherU128 w = fixed6 (displayedMicroEth w) ++ " ETH" := by
  have hw : 0 < w := lt_of_lt_of_le (by norm_num) h
  unfold formatEtherU128
  rw [if_neg (ne_of_gt (f64DivPow10_pos hw)),
    if_neg (not_lt.mpr (threshold_le_f64DivPow10 h))]

theorem formatEtherU128_zero : formatEtherU128 0 = "0 ETH" := by
  unfold formatEtherU128
  rw [if_pos (f64DivPow10_zero 18)]

/-! ### Precision bounds for the f64 pipeline -/

theorem abs_f64DivPow10_sub_le {w p : ℕ} (hw : 0 < w) :
    |f64DivPow10 w p - (w : ℚ) / 10 ^ p| ≤ 3 * ((w : ℚ) / 10 ^ p) / 2 ^ 53 := by
  have hw' : (0 : ℚ) < w := by exact_mod_cast hw
  set a := floatRound (w : ℚ) with ha
  have h1 : |a - (w : ℚ)| ≤ (w : ℚ) / 2 ^ 53 := abs_floatRound_sub_le hw'
  have ha_pos : 0 < a := floatRound_pos hw'
  have hpp : (0 : ℚ) < (10 : ℚ) ^ p := by positivity
  have hq1 : (0 : ℚ) < a / 10 ^ p := div_pos ha_pos hpp
  have h2 : |floatRound (a / 10 ^ p) - a / 10 ^ p| ≤ a / 10 ^ p / 2 ^ 53 :=
    abs_floatRound_sub_le hq1
  have hub : a ≤ 2 * (w : ℚ) := by
    rw [abs_le] at h1
    have hd : (w : ℚ) / 2 ^ 53 ≤ (w : ℚ) := by
      apply div_le_self hw'.le
      norm_num
    linarith [h1.2]
  show |floatRound (a / 10 ^ p) - (w : ℚ) / 10 ^ p| ≤ _
  have tri : |floatRound (a / 10 ^ p) - (w : ℚ) / 10 ^ p| ≤
      |floatRound (a / 10 ^ p) - a / 10 ^ p| + |a / 10 ^ p - (w : ℚ) / 10 ^ p| :=
    abs_sub_le _ _ _
  have h3 : |a / 10 ^ p - (w : ℚ) / 10 ^ p| ≤ ((w : ℚ) / 2 ^ 53) / 10 ^ p := by
    have he : |a / 10 ^ p - (w : ℚ) / 10 ^ p| = |a - (w : ℚ)| / 10 ^ p := by
      rw [← sub_div, abs_div, abs_of_pos hpp]
    rw [he]
    gcongr
  have h4 : a / 10 ^ p / 2 ^ 53 ≤ 2 * (w : ℚ) / 10 ^ p / 2 ^ 53 := by gcongr
  have he2 : 2 * (w : ℚ) / 10 ^ p / 2 ^ 53 + ((w : ℚ) / 2 ^ 53) / 10 ^ p =
      3 * ((w : ℚ) / 10 ^ p) / 2 ^ 53 := by ring
  linarith

theorem abs_displayedMicroEth_sub_le {w : ℕ} (h0 : 0 < w) (h64 : w < 2 ^ 64) :
    |displayedMicroEth w - exactMicroEth w| ≤ 1 := by
  unfold displayedMicroEth exactMicroEth
  apply abs_rnEven_diff_le
  have hpipe := abs_f64DivPow10_sub_le (p := 18) h0
  have key : f64DivPow10 w 18 * 10 ^ 6 - (w : ℚ) / 10 ^ 12 =
      (f64DivPow10 w 18 - (w : ℚ) / 10 ^ 18) * 10 ^ 6 := by ring
  rw [key, abs_mul, abs_of_pos (show (0:ℚ) < 10 ^ 6 by norm_num)]
  have step : |f64DivPow10 w 18 - (w : ℚ) / 10 ^ 18| * 10 ^ 6 ≤
      3 * ((w : ℚ) / 10 ^ 18) / 2 ^ 53 * 10 ^ 6 := by gcongr
  have hwq : (w : ℚ) < 2 ^ 64 := by exact_mod_cast h64
  have hfin : 3 * ((w : ℚ) / 10 ^ 18) / 2 ^ 53 * 10 ^ 6 < 1 / 2 := by
    have hb : 3 * ((w : ℚ) / 10 ^ 18) / 2 ^ 53 * 10 ^ 6 <
        3 * (((2 : ℚ) ^ 64) / 10 ^ 18) / 2 ^ 53 * 10 ^ 6 := by gcongr
    have hc : 3 * (((2 : ℚ) ^ 64) / 10 ^ 18) / 2 ^ 53 * 10 ^ 6 < 1 / 2 := by norm_num
    linarith
  linarith

theorem abs_displayedCentiGwei_sub_le {w : ℕ} (h0 : 0 < w) (h64 : w < 2 ^ 64) :
    |displayedCentiGwei w - exactCentiGwei w| ≤ 1 := by
  unfold displayedCentiGwei exactCentiGwei
  apply abs_rnEven_diff_le
  have hpipe := abs_f64DivPow10_sub_le (p := 9) h0
  have key : f64DivPow10 w 9 * 10 ^ 2 - (w : ℚ) / 10 ^ 7 =
      (f64DivPow10 w 9 - (w : ℚ) / 10 ^ 9) * 10 ^ 2 := by ring
  rw [key, abs_mul, abs_of_pos (show (0:ℚ) < 10 ^ 2 by norm_num)]
  have step : |f64DivPow10 w 9 - (w : ℚ) / 10 ^ 9| * 10 ^ 2 ≤
      3 * ((w : ℚ) / 10 ^ 9) / 2 ^ 53 * 10 ^ 2 := by gcongr
  have hwq : (w : ℚ) < 2 ^ 64 := by exact_mod_cast h64
  have hfin : 3 * ((w : ℚ) / 10 ^ 9) / 2 ^ 53 * 10 ^ 2 < 1 / 2 := by
    have hb : 3 * ((w : ℚ) / 10 ^ 9) / 2 ^ 53 * 10 ^ 2 <
        3 * (((2 : ℚ) ^ 64) / 10 ^ 9) / 2 ^ 53 * 10 ^ 2 := by gcongr
    have hc : 3 * (((2 : ℚ) ^ 64) / 10 ^ 9) / 2 ^ 53 * 10 ^ 2 < 1 / 2 := by norm_num
    linarith
  linarith

/-! ### Shape of the rendered strings -/

theorem decDigit_isDigit (n : ℕ) : (decDigit n).isDigit = true := by
  have h : n % 10 < 10 := Nat.mod_lt _ (by norm_num)
  unfold decDigit
  interval_cases h10 : n % 10 <;> decide

theorem pad6_length (n : ℕ) : (pad6 n).length = 6 := rfl

theorem pad6_digits (n : ℕ) : ∀ c ∈ (pad6 n).data, c.isDigit = true := by
  intro c hc
  simp only [pad6, List.mem_cons, List.not_mem_nil, or_false] at hc
  rcases hc with rfl | rfl | rfl | rfl | rfl | rfl <;> exact decDigit_isDigit _

/-! ## Lemmas about the parser's string primitives -/

theorem isSome_map_plus {α β : Type} (f : α → β) (o : Option α) :
    (o.map f).isSome = o.isSome := by
  cases o <;> rfl

theorem findSub_isSome_append_right {pat l : List Char} (b : List Char)
    (h : (findSub pat l).isSome) : (findSub pat (l ++ b)).isSome := by
  induction l with
  | nil =>
    have hp : pat.isEmpty = true := by
      by_contra hc
      simp [findSub, hc] at h
    have : pat = [] := List.isEmpty_iff.mp hp
    subst this
    cases b with
    | nil => simp [findSub]
    | cons c cs => simp [findSub, List.isPrefixOf]
  | cons c rest ih =>
    by_cases hp : pat.isPrefixOf (c :: rest)
    · have hp2 : pat.isPrefixOf (c :: (rest ++ b)) = true := by
        rw [List.isPrefixOf_iff_prefix] at hp ⊢
        exact hp.trans ((c :: rest).prefix_append b)
      rw [List.cons_append, findSub, if_pos hp2]
      rfl
    · rw [findSub, if_neg hp, isSome_map_plus] at h
      have := ih h
      rw [List.cons_append, findSub]
      split
      · rfl
      · rw [isSome_map_plus]
        exact this

theorem findSub_isSome_append_left {pat l : List Char} (a : List Char)
    (h : (findSub pat l).isSome) : (findSub pat (a ++ l)).isSome := by
  induction a with
  | nil => simpa using h
  | cons c a' ih =>
    rw [List.cons_append, findSub]
    split
    · rfl
    · rw [isSome_map_plus]
      exact ih

theorem findSub_decomp {pat l : List Char} (h : (findSub pat l).isSome) :
    ∃ a b, l = a ++ pat ++ b := by
  induction l with
  | nil =>
    have hp : pat.isEmpty = true := by
      by_contra hc
      simp [findSub, hc] at h
    exact ⟨[], [], by simp [List.isEmpty_iff.mp hp]⟩
  | cons c rest ih =>
    by_cases hp : pat.isPrefixOf (c :: rest)
    · obtain ⟨t, ht⟩ := List.isPrefixOf_iff_prefix.mp hp
      exact ⟨[], t, by simp [← ht]⟩
    · rw [findSub, if_neg hp, isSome_map_plus] at h
      obtain ⟨a, b, hab⟩ := ih h
      exact ⟨c :: a, b, by simp [hab]⟩

theorem hasSub_append_right {pat l : List Char} (b : List Char)
    (h : hasSub pat l = true) : hasSub pat (l ++ b) = true :=
  findSub_isSome_append_right b h

theorem hasSub_append_left {pat l : List Char} (a : List Char)
    (h : hasSub pat l = true) : hasSub pat (a ++ l) = true :=
  findSub_isSome_append_left a h

/-! ### `trimChars` -/

theorem mem_of_mem_trim {c : Char} {l : List Char} (h : c ∈ trimChars l) : c ∈ l := by
  unfold trimChars at h
  have h1 : c ∈ l.dropWhile ws := (List.rdropWhile_prefix ws (l.dropWhile ws)).subset h
  exact (List.dropWhile_suffix ws).subset h1

theorem hasSub_of_hasSub_trim {pat l : List Char} (h : hasSub pat (trimChars l) = true) :
    hasSub pat l = true := by
  obtain ⟨t, ht⟩ := List.rdropWhile_prefix ws (l.dropWhile ws)
  obtain ⟨a, ha⟩ := List.dropWhile_suffix (l := l) ws
  have h1 : hasSub pat (l.dropWhile ws) = true := by
    rw [← ht]
    exact hasSub_append_right t h
  rw [← ha]
  exact hasSub_append_left a h1

theorem is_call_start_of_trim {l : List Char} (h : is_call_start (trimChars l) = true) :
    is_call_start l = true := by
  simp only [is_call_start, Bool.or_eq_true] at h ⊢
  rcases h with h' | h'
  · exact Or.inl (hasSub_of_hasSub_trim h')
  · exact Or.inr (hasSub_of_hasSub_trim h')

theorem dropWhile_ws_idem (p : Char → Bool) (l : List Char) :
    (l.dropWhile p).dropWhile p = l.dropWhile p := by
  induction l with
  | nil => rfl
  | cons c rest ih =>
    by_cases hc : p c
    · simp [List.dropWhile_cons, hc, ih]
    · simp [List.dropWhile_cons, hc]

theorem trim_eq_nil_iff {l : List Char} : trimChars l = [] ↔ ∀ c ∈ l, ws c = true := by
  constructor
  · intro h c hc
    unfold trimChars List.rdropWhile at h
    have h2 : List.dropWhile ws (l.dropWhile ws).reverse = [] := by
      have := congrArg List.reverse h
      rwa [List.reverse_reverse, List.reverse_nil] at this
    have h3 : ∀ x ∈ (l.dropWhile ws).reverse, ws x = true := List.dropWhile_eq_nil_iff.mp h2
    have h4 : ∀ x ∈ l.dropWhile ws, ws x = true := fun x hx => h3 x (List.mem_reverse.mpr hx)
    rcases List.mem_append.mp (by rw [List.takeWhile_append_dropWhile]; exact hc :
        c ∈ l.takeWhile ws ++ l.dropWhile ws) with hm | hm
    · exact List.mem_takeWhile_imp hm
    · exact h4 c hm
  · intro h
    unfold trimChars
    rw [List.dropWhile_eq_nil_iff.mpr h]
    rfl

theorem is_call_start_trim_ne_nil {l : List Char} (h : is_call_start l = true) :
    trimChars l ≠ [] := by
  intro hnil
  have hall := trim_eq_nil_iff.mp hnil
  simp only [is_call_start, Bool.or_eq_true] at h
  rcases h with h' | h'
  · obtain ⟨a, b, hab⟩ := findSub_decomp (h := h')
    have hm : '├' ∈ l := by rw [hab]; simp [midMarker]
    exact absurd (hall _ hm) (by decide)
  · obtain ⟨a, b, hab⟩ := findSub_decomp (h := h')
    have hm : '└' ∈ l := by rw [hab]; simp [lastMarker]
    exact absurd (hall _ hm) (by decide)

theorem dropWhile_ws_trim (l : List Char) : (trimChars l).dropWhile ws = trimChars l := by
  unfold trimChars
  rcases hm : (l.dropWhile ws).rdropWhile ws with _ | ⟨c, rest⟩
  · rfl
  · have hpre := List.rdropWhile_prefix ws (l.dropWhile ws)
    rw [hm] at hpre
    obtain ⟨t, ht⟩ := hpre
    have hdw : l.dropWhile ws = c :: (rest ++ t) := by rw [← ht]; simp
    have hc : ws c = false := by
      have := dropWhile_ws_idem ws l
      rw [hdw] at this
      by_contra hcon
      rw [List.dropWhile_cons] at this
      simp only [Bool.not_eq_false] at hcon
      rw [if_pos hcon] at this
      have hlen := congrArg List.length this
      rw [List.length_cons] at hlen
      have hsub := (List.dropWhile_suffix (l := rest ++ t) ws).length_le
      omega
    simp [List.dropWhile_cons, hc]

theorem rdropWhile_ws_trim (l : List Char) : (trimChars l).rdropWhile ws = trimChars l := by
  unfold trimChars List.rdropWhile
  rw [List.reverse_reverse, dropWhile_ws_idem]

theorem trim_idem (l : List Char) : trimChars (trimChars l) = trimChars l := by
  rw [show trimChars (trimChars l) = ((trimChars l).dropWhile ws).rdropWhile ws from rfl,
    dropWhile_ws_trim, rdropWhile_ws_trim]

theorem trim_getLast_not_ws {l : List Char} (h : trimChars l ≠ []) :
    ∀ c, (trimChars l).getLast? = some c → ws c = false := by
  intro c hc
  have h2 : (trimChars l).rdropWhile ws = trimChars l := rdropWhile_ws_trim l
  have h3 := List.rdropWhile_eq_self_iff.mp h2 h
  have hceq : c = (trimChars l).getLast h := by
    rw [List.getLast?_eq_getLast _ h] at hc
    exact (Option.some_inj.mp hc).symm
  rw [hceq]
  simpa using h3

/-! ### `splitNl` -/

theorem splitNl_ne_nil (l : List Char) : splitNl l ≠ [] := by
  induction l with
  | nil => simp [splitNl]
  | cons c rest ih =>
    by_cases hc : c = '\n'
    · simp [splitNl, hc]
    · rcases h : splitNl rest with _ | ⟨p, ps⟩
      · exact absurd h ih
      · simp [splitNl, hc, h]

theorem splitNl_no_nl (l : List Char) : ∀ p ∈ splitNl l, ('\n' : Char) ∉ p := by
  induction l with
  | nil => intro p hp; simp [splitNl] at hp; simp [hp]
  | cons c rest ih =>
    intro p hp
    by_cases hc : c = '\n'
    · rw [splitNl, if_pos hc] at hp
      rcases List.mem_cons.mp hp with rfl | hp'
      · simp
      · exact ih p hp'
    · rcases h : splitNl rest with _ | ⟨q, qs⟩
      · exact absurd h (splitNl_ne_nil rest)
      · rw [splitNl, if_neg hc, h] at hp
        rcases List.mem_cons.mp hp with rfl | hp'
        · intro hmem
          rcases List.mem_cons.mp hmem with rfl | hmem'
          · exact hc rfl
          · exact ih q (by rw [h]; simp) hmem'
        · exact ih p (by rw [h]; simp [hp'])

theorem splitNl_single {l : List Char} (h : ('\n' : Char) ∉ l) : splitNl l = [l] := by
  induction l with
  | nil => rfl
  | cons c rest ih =>
    have hc : c ≠ '\n' := fun hcc => h (by rw [hcc]; simp)
    have hrest : ('\n' : Char) ∉ rest := fun hm => h (List.mem_cons_of_mem _ hm)
    rw [splitNl, if_neg hc, ih hrest]

theorem splitNl_append_nl (a b : List Char) :
    splitNl (a ++ '\n' :: b) = splitNl a ++ splitNl b := by
  induction a with
  | nil => simp [splitNl]
  | cons c a' ih =>
    by_cases hc : c = '\n'
    · rw [List.cons_append, splitNl, if_pos hc, ih, splitNl, if_pos hc]
      rfl
    · rcases h : splitNl a' with _ | ⟨p, ps⟩
      · exact absurd h (splitNl_ne_nil a')
      · rw [List.cons_append, splitNl, if_neg hc, ih, h, splitNl, if_neg hc, h]
        simp

theorem splitNl_append_left {a : List Char} (b : List Char) (h : ('\n' : Char) ∉ a) :
    splitNl (a ++ b) = (splitNl b).modifyHead (a ++ ·) := by
  induction a with
  | nil =>
    rcases hb : splitNl b with _ | ⟨p, ps⟩
    · exact absurd hb (splitNl_ne_nil b)
    · simp [hb]
  | cons c a' ih =>
    have hc : c ≠ '\n' := fun hcc => h (by rw [hcc]; simp)
    have ha' : ('\n' : Char) ∉ a' := fun hm => h (List.mem_cons_of_mem _ hm)
    rcases hb : splitNl b with _ | ⟨p, ps⟩
    · exact absurd hb (splitNl_ne_nil b)
    · have hab : splitNl (a' ++ b) = (a' ++ p) :: ps := by rw [ih ha', hb]; rfl
      rw [List.cons_append, splitNl, if_neg hc, hab]
      simp [hb]

/-! ### `firstLine` -/

theorem firstLine_of_no_nl {l : List Char} (h : ('\n' : Char) ∉ l) : firstLine l = l := by
  induction l with
  | nil => rfl
  | cons c rest ih =>
    have hc : c ≠ '\n' := fun hcc => h (by rw [hcc]; simp)
    have hrest : ('\n' : Char) ∉ rest := fun hm => h (List.mem_cons_of_mem _ hm)
    rw [firstLine, List.takeWhile_cons, if_pos (by simp [hc])]
    rw [firstLine] at ih
    rw [ih hrest]

theorem firstLine_append_nl (cur x : List Char) :
    firstLine (cur ++ '\n' :: x) = firstLine cur := by
  induction cur with
  | nil =>
    rw [List.nil_append, firstLine, firstLine, List.takeWhile_cons]
    norm_num
  | cons c rest ih =>
    by_cases hc : c = '\n'
    · rw [List.cons_append, firstLine, firstLine, List.takeWhile_cons, List.takeWhile_cons,
        if_neg (by simp [hc]), if_neg (by simp [hc])]
    · rw [List.cons_append, firstLine, firstLine, List.takeWhile_cons, List.takeWhile_cons,
        if_pos (by simp [hc]), if_pos (by simp [hc])]
      rw [firstLine, firstLine] at ih
      rw [ih]

/-! ### The parser correspondence -/

/-- The observable key of an emitted node: its depth and the first line of its
text. -/
def nodeKey (n : CallNode) : Nat × List Char := (n.depth, firstLine n.trace.data)

/-- The key a call-initiating line contributes: the parser's depth for it and
its trimmed text. -/
def lineKey (l : List Char) : Nat × List Char := (code_depth l, trimChars l)

theorem nl_not_mem_trim {l : List Char} (h : ('\n' : Char) ∉ l) :
    ('\n' : Char) ∉ trimChars l := fun hm => h (mem_of_mem_trim hm)

theorem parse_master (ls : List (List Char)) :
    ∀ st : ParseState, (∀ l ∈ ls, ('\n' : Char) ∉ l) →
      (flushNode (ls.foldl parseStep st)).map nodeKey =
        (flushNode st).map nodeKey ++ (ls.filter is_call_start).map lineKey := by
  induction ls with
  | nil => intro st _; simp
  | cons l rest ih =>
    intro st h
    have hl : ('\n' : Char) ∉ l := h l (by simp)
    have hrest : ∀ x ∈ rest, ('\n' : Char) ∉ x := fun x hx => h x (by simp [hx])
    rw [List.foldl_cons, ih (parseStep st l) hrest]
    have hkey : (flushNode (parseStep st l)).map nodeKey =
        (flushNode st).map nodeKey ++ (if is_call_start l then [lineKey l] else []) := by
      unfold parseStep
      by_cases hblank : (trimChars l).isEmpty
      · rw [if_pos hblank]
        have hcall : is_call_start l = false := by
          by_contra hcon
          rw [Bool.not_eq_false] at hcon
          exact is_call_start_trim_ne_nil hcon (List.isEmpty_iff.mp hblank)
        rw [hcall]
        simp
      · rw [if_neg hblank]
        by_cases hcall : is_call_start l
        · rw [if_pos hcall, hcall, if_pos rfl]
          have hflush : flushNode ⟨flushNode st, trimChars l, code_depth l⟩ =
              flushNode st ++ [⟨code_depth l, ⟨trimChars l⟩⟩] := by
            unfold flushNode
            rw [if_neg (by simpa using hblank)]
          rw [hflush, List.map_append]
          congr 1
      -- the single new node's key is the line's key
          simp only [List.map_cons, List.map_nil, nodeKey, lineKey]
          rw [firstLine_of_no_nl (nl_not_mem_trim hl)]
        · rw [if_neg hcall, Bool.not_eq_true] at *
          rw [hcall]
          simp only [Bool.false_eq_true, if_false, List.append_nil]
          by_cases hcur : st.current.isEmpty
          · rw [if_pos hcur]
          · rw [if_neg hcur]
            have hne : ¬(st.current ++ '\n' :: trimChars l).isEmpty = true := by
              simp
            unfold flushNode
            rw [if_neg hne, if_neg hcur]
            rw [List.map_append, List.map_append]
            congr 1
            simp only [List.map_cons, List.map_nil, nodeKey]
            rw [firstLine_append_nl]
    rw [hkey, List.filter_cons]
    by_cases hcall : is_call_start l
    · rw [hcall]
      simp
    · rw [Bool.not_eq_true] at hcall
      rw [hcall]
      simp

theorem parseLines_keys (ls : List (List Char)) (h : ∀ l ∈ ls, ('\n' : Char) ∉ l) :
    (parseLines ls).map nodeKey = (ls.filter is_call_start).map lineKey := by
  unfold parseLines
  rw [parse_master ls ⟨[], [], 0⟩ h]
  simp [flushNode]

/-! ### `toLines` -/

theorem toLines_no_nl (s : String) : ∀ l ∈ toLines s, ('\n' : Char) ∉ l := by
  intro l hl
  unfold toLines at hl
  obtain ⟨q, hq, rfl⟩ := List.mem_map.mp hl
  have hq' : q ∈ splitNl s.data := by
    unfold dropTrailingEmpty at hq
    split at hq
    · exact (List.dropLast_sublist _).subset hq
    · exact hq
  intro hmem
  have hmem' : ('\n' : Char) ∈ q := by
    unfold stripCr at hmem
    split at hmem
    · exact (List.dropLast_sublist _).subset hmem
    · exact hmem
  exact splitNl_no_nl _ q hq' hmem'

/-! ### Well-formedness of emitted node texts -/

/-- Structure of any text the parser accumulates: every newline-separated
piece is trim-fixed and non-empty, and every piece after the first is not
call-initiating. -/
def wfPieces (tr : List Char) : Prop :=
  (∀ p ∈ splitNl tr, trimChars p = p ∧ p ≠ []) ∧
    ∀ p ∈ (splitNl tr).tail, is_call_start p = false

theorem wfPieces_trim {l : List Char} (hnl : ('\n' : Char) ∉ l) (hne : trimChars l ≠ []) :
    wfPieces (trimChars l) := by
  have hs : splitNl (trimChars l) = [trimChars l] := splitNl_single (nl_not_mem_trim hnl)
  constructor
  · intro p hp
    rw [hs, List.mem_singleton] at hp
    subst hp
    exact ⟨trim_idem l, hne⟩
  · intro p hp
    rw [hs] at hp
    simp at hp

theorem wfPieces_append {cur l : List Char} (hw : wfPieces cur) (hnl : ('\n' : Char) ∉ l)
    (hne : trimChars l ≠ []) (hcall : is_call_start l = false) :
    wfPieces (cur ++ '\n' :: trimChars l) := by
  have hs : splitNl (cur ++ '\n' :: trimChars l) = splitNl cur ++ [trimChars l] := by
    rw [splitNl_append_nl, splitNl_single (nl_not_mem_trim hnl)]
  constructor
  · intro p hp
    rw [hs] at hp
    rcases List.mem_append.mp hp with hp' | hp'
    · exact hw.1 p hp'
    · rw [List.mem_singleton] at hp'
      subst hp'
      exact ⟨trim_idem l, hne⟩
  · intro p hp
    rw [hs] at hp
    rcases hsc : splitNl cur with _ | ⟨q, qs⟩
    · exact absurd hsc (splitNl_ne_nil cur)
    · rw [hsc, List.cons_append, List.tail_cons] at hp
      rcases List.mem_append.mp hp with hp' | hp'
      · exact hw.2 p (by rw [hsc]; simpa using hp')
      · rw [List.mem_singleton] at hp'
        subst hp'
        by_contra hcon
        rw [Bool.not_eq_false] at hcon
        rw [is_call_start_of_trim hcon] at hcall
        exact absurd hcall (by simp)

theorem flushNode_wf {st : ParseState} (htr : ∀ n ∈ st.traces, wfPieces n.trace.data)
    (hcur : st.current.isEmpty = false → wfPieces st.current) :
    ∀ n ∈ flushNode st, wfPieces n.trace.data := by
  intro n hn
  unfold flushNode at hn
  split at hn
  · exact htr n hn
  · rcases List.mem_append.mp hn with h' | h'
    · exact htr n h'
    · rw [List.mem_singleton] at h'
      subst h'
      rename_i hcond
      exact hcur (by rwa [Bool.not_eq_true] at hcond)

theorem parse_wf (ls : List (List Char)) :
    ∀ st : ParseState, (∀ l ∈ ls, ('\n' : Char) ∉ l) →
      (∀ n ∈ st.traces, wfPieces n.trace.data) →
      (st.current.isEmpty = false → wfPieces st.current) →
      ∀ n ∈ flushNode (ls.foldl parseStep st), wfPieces n.trace.data := by
  induction ls with
  | nil =>
    intro st _ htr hcur
    exact flushNode_wf htr hcur
  | cons l rest ih =>
    intro st h htr hcur
    have hl : ('\n' : Char) ∉ l := h l (by simp)
    have hrest : ∀ x ∈ rest, ('\n' : Char) ∉ x := fun x hx => h x (by simp [hx])
    rw [List.foldl_cons]
    by_cases hblank : (trimChars l).isEmpty
    · have hstep : parseStep st l = st := by unfold parseStep; rw [if_pos hblank]
      rw [hstep]
      exact ih st hrest htr hcur
    · by_cases hcall : is_call_start l
      · have hstep : parseStep st l =
            ⟨flushNode st, trimChars l, code_depth l⟩ := by
          unfold parseStep
          rw [if_neg hblank, if_pos hcall]
        rw [hstep]
        apply ih _ hrest
        · exact flushNode_wf htr hcur
        · intro _
          exact wfPieces_trim hl (by simpa using hblank)
      · by_cases hcur2 : st.current.isEmpty
        · have hstep : parseStep st l = st := by
            unfold parseStep
            rw [if_neg hblank, if_neg hcall, if_pos hcur2]
          rw [hstep]
          exact ih st hrest htr hcur
        · have hstep : parseStep st l =
              { st with current := st.current ++ '\n' :: trimChars l } := by
            unfold parseStep
            rw [if_neg hblank, if_neg hcall, if_neg hcur2]
          rw [hstep]
          apply ih _ hrest
          · exact htr
          · intro _
            exact wfPieces_append (hcur (by rwa [Bool.not_eq_true] at hcur2)) hl
              (by simpa using hblank) (by rwa [Bool.not_eq_true] at hcall)

theorem parseLines_wf (ls : List (List Char)) (h : ∀ l ∈ ls, ('\n' : Char) ∉ l) :
    ∀ n ∈ parseLines ls, wfPieces n.trace.data := by
  unfold parseLines
  exact parse_wf ls ⟨[], [], 0⟩ h (by intro n hn; simp at hn) (by intro hc; simp at hc)

/-! ### The reconstruction of claim C9 -/

theorem findSub_mid_reindent (d : Nat) (x : List Char) :
    findSub midMarker (List.replicate d '│' ++ '├' :: '─' :: x) = some d := by
  induction d with
  | zero =>
    have hp : midMarker.isPrefixOf ('├' :: '─' :: x) = true := by
      simp [midMarker, List.isPrefixOf]
    rw [List.replicate_zero, List.nil_append, findSub, if_pos hp]
  | succ d ih =>
    have he : List.replicate (d + 1) '│' ++ '├' :: '─' :: x =
        '│' :: (List.replicate d '│' ++ '├' :: '─' :: x) := by
      rw [List.replicate_succ, List.cons_append]
    have hp : midMarker.isPrefixOf ('│' :: (List.replicate d '│' ++ '├' :: '─' :: x)) = false := by
      simp [midMarker, List.isPrefixOf]
    rw [he, findSub, if_neg (by rw [hp]; exact Bool.false_ne_true), ih]
    rfl

theorem code_depth_reindent (d : Nat) (x : List Char) :
    code_depth (List.replicate d '│' ++ '├' :: '─' :: x) = d := by
  unfold code_depth beforeMarker markerPos
  rw [findSub_mid_reindent]
  show ((List.replicate d '│' ++ '├' :: '─' :: x).take d).count '│' = d
  rw [List.take_left' (List.length_replicate _ _)]
  exact List.count_replicate_self _ _

theorem is_call_start_reindent (d : Nat) (x : List Char) :
    is_call_start (List.replicate d '│' ++ '├' :: '─' :: x) = true := by
  unfold is_call_start hasSub
  rw [findSub_mid_reindent]
  rfl

theorem splitNl_joinNl (ps : List (List Char)) (hne : ps ≠ []) :
    splitNl (joinNl ps) = (ps.map splitNl).join := by
  induction ps with
  | nil => exact absurd rfl hne
  | cons x xs ih =>
    cases xs with
    | nil => simp [joinNl]
    | cons y ys =>
      rw [show joinNl (x :: y :: ys) = x ++ '\n' :: joinNl (y :: ys) from rfl]
      rw [splitNl_append_nl, ih (by simp)]
      simp

theorem splitNl_reindentMid (n : CallNode) :
    ∃ t0 rest, splitNl n.trace.data = t0 :: rest ∧
      splitNl (reindentMidMarker n) =
        (List.replicate n.depth '│' ++ '├' :: '─' :: ' ' :: t0) :: rest := by
  rcases h : splitNl n.trace.data with _ | ⟨t0, rest⟩
  · exact absurd h (splitNl_ne_nil _)
  · refine ⟨t0, rest, rfl, ?_⟩
    have hpre : ('\n' : Char) ∉ (List.replicate n.depth '│' ++ ['├', '─', ' ']) := by
      intro hm
      rcases List.mem_append.mp hm with h' | h'
      · exact absurd (List.eq_of_mem_replicate h') (by decide)
      · exact absurd h' (by decide)
    have heq : reindentMidMarker n =
        (List.replicate n.depth '│' ++ ['├', '─', ' ']) ++ n.trace.data := by
      unfold reindentMidMarker
      simp
    rw [heq, splitNl_append_left _ hpre, h]
    simp

theorem stripCr_eq_self {p : List Char}
    (h2 : ∀ c, p.getLast? = some c → ws c = false) : stripCr p = p := by
  unfold stripCr
  split
  · rename_i hcond
    exact absurd (h2 _ hcond) (by decide)
  · rfl

theorem dropTrailingEmpty_eq_self {A : List (List Char)} (h : ∀ p ∈ A, p ≠ []) :
    dropTrailingEmpty A = A := by
  unfold dropTrailingEmpty
  split
  · rename_i hcond
    have hp : ([] : List Char) ∈ A := List.mem_of_getLast?_eq_some hcond
    exact absurd rfl (h _ hp)
  · rfl

theorem reconPieces_good {ns : List CallNode} (hw : ∀ n ∈ ns, wfPieces n.trace.data) :
    ∀ p ∈ (ns.map fun n => splitNl (reindentMidMarker n)).join,
      p ≠ [] ∧ ∀ c, p.getLast? = some c → ws c = false := by
  intro p hp
  rw [List.mem_join] at hp
  obtain ⟨L, hL, hpL⟩ := hp
  rw [List.mem_map] at hL
  obtain ⟨n, hn, rfl⟩ := hL
  have hwn := hw n hn
  obtain ⟨t0, rest, hsp, hre⟩ := splitNl_reindentMid n
  have ht0 : trimChars t0 = t0 ∧ t0 ≠ [] := hwn.1 t0 (by rw [hsp]; simp)
  rw [hre] at hpL
  rcases List.mem_cons.mp hpL with rfl | hp'
  · constructor
    · simp
    · intro c hc
      have hT : t0.getLast? = some (t0.getLast ht0.2) := List.getLast?_eq_getLast _ ht0.2
      have hassoc : List.replicate n.depth '│' ++ '├' :: '─' :: ' ' :: t0 =
          (List.replicate n.depth '│' ++ ['├', '─', ' ']) ++ t0 := by simp
      rw [hassoc, List.getLast?_append, hT] at hc
      rw [Option.or_some] at hc
      have hlast : t0.getLast ht0.2 = c := Option.some_inj.mp hc
      have := trim_getLast_not_ws (l := t0) (by rw [ht0.1]; exact ht0.2) c
      rw [ht0.1] at this
      exact this (by rw [hT]; exact congrArg some hlast)
  · have hmem : p ∈ splitNl n.trace.data := by rw [hsp]; exact List.mem_cons_of_mem _ hp'
    have hpp := hwn.1 p hmem
    refine ⟨hpp.2, ?_⟩
    intro c hc
    have := trim_getLast_not_ws (l := p) (by rw [hpp.1]; exact hpp.2) c
    rw [hpp.1] at this
    exact this hc

theorem toLines_reconstructMid {ns : List CallNode} (hw : ∀ n ∈ ns, wfPieces n.trace.data)
    (hne : ns ≠ []) :
    toLines (reconstructMidMarker ns) = (ns.map fun n => splitNl (reindentMidMarker n)).join := by
  have hdata : (reconstructMidMarker ns).data = joinNl (ns.map reindentMidMarker) := rfl
  unfold toLines
  rw [hdata, splitNl_joinNl _ (by intro hcon; exact hne (by simpa using hcon))]
  rw [List.map_map]
  have hgood := reconPieces_good hw
  have hjoin_eq : ((ns.map fun n => splitNl (reindentMidMarker n)).join) =
      (ns.map (splitNl ∘ reindentMidMarker)).join := rfl
  rw [← hjoin_eq]
  rw [dropTrailingEmpty_eq_self (fun p hp => (hgood p hp).1)]
  have : ∀ p ∈ (ns.map fun n => splitNl (reindentMidMarker n)).join, stripCr p = p :=
    fun p hp => stripCr_eq_self (hgood p hp).2
  calc ((ns.map fun n => splitNl (reindentMidMarker n)).join).map stripCr
      = ((ns.map fun n => splitNl (reindentMidMarker n)).join).map id :=
        List.map_congr_left fun p hp => this p hp
    _ = _ := List.map_id _

theorem reconLines_depths {ns : List CallNode} (hw : ∀ n ∈ ns, wfPieces n.trace.data) :
    (((ns.map fun n => splitNl (reindentMidMarker n)).join).filter is_call_start).map code_depth
      = ns.map CallNode.depth := by
  induction ns with
  | nil => simp
  | cons n ns ih =>
    have hwn := hw n (by simp)
    have hwns : ∀ m ∈ ns, wfPieces m.trace.data := fun m hm => hw m (by simp [hm])
    obtain ⟨t0, rest, hsp, hre⟩ := splitNl_reindentMid n
    rw [List.map_cons,
      show ((splitNl (reindentMidMarker n)) :: (ns.map fun m => splitNl (reindentMidMarker m))).join
        = splitNl (reindentMidMarker n) ++ (ns.map fun m => splitNl (reindentMidMarker m)).join
        from rfl,
      List.filter_append, List.map_append, ih hwns]
    have hfirst : (List.filter is_call_start (splitNl (reindentMidMarker n))).map code_depth
        = [n.depth] := by
      rw [hre, List.filter_cons, if_pos (by rw [is_call_start_reindent])]
      have hrest : List.filter is_call_start rest = [] := by
        rw [List.filter_eq_nil]
        intro p hp
        have := hwn.2 p (by rw [hsp]; simpa using hp)
        simp [this]
      rw [hrest, List.map_cons, List.map_nil, code_depth_reindent]
    rw [hfirst, List.map_cons]
    rfl

theorem code_depth_eq_amended (l : List Char) : code_depth l = amended_depth l := by
  unfold code_depth amended_depth beforeMarker markerPos
  cases h : findSub midMarker l with
  | none => simp [Option.orElse, h]
  | some p => simp [Option.orElse, h]

/-! ## The claims -/

/-- Claim C1 (code bug): the teardown-exactly-once invariant holds on every
path of `trace_transaction` (the `AnvilInstance` destructor runs once on each
exit), but `TransactionSimulator::simulate_transaction` spawns anvil through a
`tokio::process::Command` without `kill_on_drop` and returns without ever
shutting it down — a successful run emits one spawn and zero teardown events,
contradicting the function's own step comments ("shut down anvil after
simulation is complete"). -/
theorem c1_teardown_missing :
    (∀ env : TraceEnv, (trace_transaction env).2 = 1) ∧
      (TransactionSimulator.simulate_transaction (.ok ()) true).1 =
        .ok "Transaction trace placeholder" ∧
      (TransactionSimulator.simulate_transaction (.ok ()) true).2.count .spawnAnvil = 1 ∧
      (TransactionSimulator.simulate_transaction (.ok ()) true).2.count .teardownAnvil = 0 := by
  refine ⟨fun env => ?_, rfl, by decide, by decide⟩
  rcases env with ⟨rf, tf, c⟩
  rcases rf with e | ro
  · rfl
  · rcases ro with _ | rc
    · rfl
    · rcases tf with e' | td
      · rfl
      · rcases td with _ | tx
        · rfl
        · unfold trace_transaction
          dsimp only
          split <;> rfl

/-- Claim C2 counterexample: a trace-capture command that completes with a
non-zero exit status does not suppress the call-trace section — the request
succeeds and the report still carries a `callTrace` built from the captured
stdout, contrary to the claim's "contains no callTrace section". -/
theorem c2_counterexample :
    ((trace_transaction c2envNonZeroExit).1.toOption.map fun r => r.callTrace.isSome) =
      some true := by decide

/-- Claim C2 (amended): when the external command times out, is missing, or
fails to launch, `get_cast_trace_quick` returns `Err`, so the request still
succeeds with the full report and no `callTrace` section; only a completed
command (even with non-zero exit status) contributes a `callTrace`. -/
theorem c2_amended (env : TraceEnv) (rcpt : TransactionReceipt) (tx : Transaction)
    (r : Report) (hrcpt : env.receiptFetch = .ok (some rcpt))
    (htx : env.txFetch = .ok (some tx))
    (hcast : env.cast = .timeout ∨ env.cast = .binaryMissing ∨ ∃ m, env.cast = .execError m)
    (hfmt : format_tenderly_style tx rcpt none = some r) :
    trace_transaction env = (.ok r, 1) ∧ r.callTrace = none := by
  constructor
  · rcases env with ⟨rf, tf, c⟩
    dsimp only at hrcpt htx hcast
    subst hrcpt
    subst htx
    have hnone : (match get_cast_trace_quick c with
        | .ok trace_output => some trace_output.stdout
        | .error _ => none) = (none : Option String) := by
      rcases hcast with h | h | ⟨m, h⟩ <;> rw [h] <;> rfl
    unfold trace_transaction
    dsimp only
    rw [hnone, hfmt]
  · rw [format_tenderly_style] at hfmt
    obtain ⟨value, hv, hfmt⟩ := Option.bind_eq_some.mp hfmt
    obtain ⟨gp, hgp, hfmt⟩ := Option.bind_eq_some.mp hfmt
    obtain ⟨egp, hegp, hfmt⟩ := Option.bind_eq_some.mp hfmt
    obtain ⟨tc, htc, hfmt⟩ := Option.bind_eq_some.mp hfmt
    have hr := Option.some_inj.mp hfmt
    rw [← hr]
    rfl

/-- Witness for C2 at a concrete timed-out environment. -/
theorem c2_witness :
    trace_transaction c2envTimeout = (.ok c2report, 1) ∧ c2report.callTrace = none :=
  c2_amended c2envTimeout c4receipt c4tx c2report rfl rfl (Or.inl rfl) (by decide)

/-- Claim C3 counterexample: the base-unit amount `0` is below the threshold,
yet it renders as `"0 ETH"` rather than as the raw integer with the `wei`
suffix — and `"0 ETH"` is exactly the output the claim says never occurs. -/
theorem c3_counterexample :
    formatEtherU128 0 = "0 ETH" ∧ formatEtherU128 0 ≠ Nat.repr 0 ++ " wei" := by decide

/-- Claim C3 (amended): for every amount at or above `10^12` wei the rendering
is an integer part, a dot, exactly six decimal digits and the `" ETH"` suffix;
for every **non-zero** amount below `10^12` wei it is the raw integer with the
`" wei"` suffix; the amount `0` (and only `0`) renders as `"0 ETH"`. -/
theorem c3_amended (w : ℕ) :
    (10 ^ 12 ≤ w → sixDecimalEthString (formatEtherU128 w)) ∧
      (0 < w → w < 10 ^ 12 → formatEtherU128 w = Nat.repr w ++ " wei") ∧
      (formatEtherU128 w = "0 ETH" ↔ w = 0) := by
  refine ⟨?_, ?_, ?_, ?_⟩
  · intro h
    rw [formatEtherU128_eq_eth h]
    exact ⟨Nat.repr ((displayedMicroEth w).toNat / 1000000),
      pad6 ((displayedMicroEth w).toNat % 1000000), rfl, pad6_length _, pad6_digits _⟩
  · intro h1 h2
    exact formatEtherU128_eq_wei h1 h2
  · intro heq
    by_contra hw
    have hpos : 0 < w := Nat.pos_of_ne_zero hw
    by_cases hbig : 10 ^ 12 ≤ w
    · rw [formatEtherU128_eq_eth hbig] at heq
      have hlen := congrArg String.length heq
      rw [String.length_append, show (" ETH").length = 4 from rfl,
        show ("0 ETH").length = 5 from rfl] at hlen
      have h2 : (fixed6 (displayedMicroEth w)).length ≥ 7 := by
        unfold fixed6
        rw [String.length_append, String.length_append, pad6_length,
          show (".").length = 1 from rfl]
        omega
      omega
    · have hlow : w < 10 ^ 12 := not_le.mp hbig
      rw [formatEtherU128_eq_wei hpos hlow] at heq
      have hidata : (Nat.repr w ++ " wei").data.getLast? = some 'i' := by
        rw [show (Nat.repr w ++ " wei").data = (Nat.repr w).data ++ (" wei").data from rfl,
          List.getLast?_append]
        rfl
      rw [heq] at hidata
      exact absurd hidata (by decide)
  · intro h
    subst h
    exact formatEtherU128_zero

/-- Witness for C3 at the concrete input `0`. -/
theorem c3_witness : formatEtherU128 0 = "0 ETH" := (c3_amended 0).2.2.mpr rfl

/-- Claim C4: the end-to-end scenario — success receipt, `gasUsed = 21000`,
`effectiveGasPrice = 10^9`, value one ether, one log with the Transfer topic —
assembles into a report with status `"✓ Success"`, value `"1.000000 ETH"`,
total cost `"0.000021 ETH"` and exactly one event named
`Transfer(address,address,uint256)`. -/
theorem c4_scenario :
    (format_tenderly_style c4tx c4receipt none).map
        (fun r => (r.overview.status, r.transactionInfo.value, r.gasDetails.totalCost,
          r.events.map EventJson.name)) =
      some ("✓ Success", "1.000000 ETH", "0.000021 ETH",
        ["Transfer(address,address,uint256)"]) := by decide

/-- Claim C5 counterexample: at `wei = 2.5 * 10^12` the f64 pipeline renders
`"0.000003 ETH"` while exact arbitrary-precision arithmetic rounded
half-to-even at six decimals gives `"0.000002 ETH"` — the conversion silently
loses precision. -/
theorem c5_counterexample :
    formatEtherU128 2500000000000 = "0.000003 ETH" ∧
      exactEtherString 2500000000000 = "0.000002 ETH" ∧
      formatEtherU128 2500000000000 ≠ exactEtherString 2500000000000 := by decide

/-- Claim C5 (amended): the rendered value can differ from exact arithmetic,
but for every non-zero amount below `2^64` the displayed 6-decimal ether value
and 2-decimal gwei value are each within one unit in the last displayed digit
of the exactly rounded value. -/
theorem c5_amended (w : ℕ) (h0 : 0 < w) (h64 : w < 2 ^ 64) :
    |displayedMicroEth w - exactMicroEth w| ≤ 1 ∧
      |displayedCentiGwei w - exactCentiGwei w| ≤ 1 :=
  ⟨abs_displayedMicroEth_sub_le h0 h64, abs_displayedCentiGwei_sub_le h0 h64⟩

/-- Witness for C5 at the concrete input `10^12`. -/
theorem c5_witness :
    |displayedMicroEth (10 ^ 12) - exactMicroEth (10 ^ 12)| ≤ 1 ∧
      |displayedCentiGwei (10 ^ 12) - exactCentiGwei (10 ^ 12)| ≤ 1 :=
  c5_amended (10 ^ 12) (by decide) (by decide)

/-- Claim C6 counterexample: on the line `└─│├─ x` the first branch marker is
the `└─` at position 0 with zero `'│'` before it, but the parser prefers the
later `├─` (`find("├─").or_else(find("└─"))`) and assigns depth 1. -/
theorem c6_counterexample :
    (parse_call_trace "└─│├─ x").calls.map CallNode.depth = [1] ∧
      spec_depth "└─│├─ x".data = 0 := by decide

/-- Claim C6 (amended): each parsed node corresponds, in order, to a
call-initiating line of the input; its depth is the count of `'│'` before the
first `├─` when the line contains one, otherwise before the first `└─`, and
its initial text is that line trimmed. -/
theorem c6_amended (s : String) :
    (parse_call_trace s).calls.map (fun n => (n.depth, firstLine n.trace.data)) =
      ((toLines s).filter is_call_start).map (fun l => (amended_depth l, trimChars l)) := by
  have h := parseLines_keys (toLines s) (toLines_no_nl s)
  have h2 : (parse_call_trace s).calls = parseLines (toLines s) := rfl
  rw [h2, show (fun n : CallNode => (n.depth, firstLine n.trace.data)) = nodeKey from rfl, h]
  apply List.map_congr_left
  intro l _
  rw [show lineKey l = (code_depth l, trimChars l) from rfl, code_depth_eq_amended]

/-- Claim C7: the three-line input — a depth-0 call line, a depth-1 call line
and a continuation line — parses to exactly two nodes, the first with depth 0
and its own trimmed line, the second with depth 1 and its two trimmed lines
joined by a newline. -/
theorem c7_three_lines :
    (parse_call_trace "  ├─ A\n  │   ├─ B\n  │   │  ret 1").calls =
      [⟨0, "├─ A"⟩, ⟨1, "│   ├─ B\n│   │  ret 1"⟩] := by decide

/-- Claim C8: an input with no call-initiating line — however many blank or
continuation-only lines it has, including the empty input — parses to the
empty node sequence (and the total Lean model returns it without any failure
case). -/
theorem c8_no_call_lines (s : String) (h : ∀ l ∈ toLines s, is_call_start l = false) :
    (parse_call_trace s).calls = [] := by
  have hk := parseLines_keys (toLines s) (toLines_no_nl s)
  have hf : (toLines s).filter is_call_start = [] := by
    rw [List.filter_eq_nil]
    intro a ha
    simp [h a ha]
  rw [hf] at hk
  have h2 : (parse_call_trace s).calls = parseLines (toLines s) := rfl
  rw [h2]
  cases hcase : parseLines (toLines s) with
  | nil => rfl
  | cons a as =>
    rw [hcase, List.map_cons] at hk
    exact absurd hk (by simp)

/-- Witness for C8 at a concrete continuation-only input. -/
theorem c8_witness : (parse_call_trace "first\n\n  return 0xabc\n│ note").calls = [] :=
  c8_no_call_lines _ (by decide)

/-- Claim C9 counterexample: re-indenting each emitted node's text with its
depth of `'│'` glyphs and the last-child branch marker and re-parsing does not
reproduce the depth sequence: the two-call input with depths `[0, 1]`
re-parses to `[0, 2]`, because a node's retained text still contains its own
`├─`, which the parser finds preferentially. -/
theorem c9_counterexample :
    (parse_call_trace (reconstructLastMarker (parse_call_trace c9input).calls)).calls.map
        CallNode.depth = [0, 2] ∧
      (parse_call_trace c9input).calls.map CallNode.depth = [0, 1] := by decide

/-- Claim C9 (amended): re-indenting each emitted node's text with its
recorded depth of `'│'` glyphs and the middle-child branch marker `├─` and
re-parsing the concatenation reproduces exactly the original depth sequence,
for every input. -/
theorem c9_amended (s : String) :
    (parse_call_trace (reconstructMidMarker (parse_call_trace s).calls)).calls.map
        CallNode.depth = (parse_call_trace s).calls.map CallNode.depth := by
  by_cases hempty : (parse_call_trace s).calls = []
  · rw [hempty, show reconstructMidMarker [] = "" from rfl]
    decide
  · have hwf : ∀ n ∈ (parse_call_trace s).calls, wfPieces n.trace.data :=
      parseLines_wf (toLines s) (toLines_no_nl s)
    have htl : toLines (reconstructMidMarker (parse_call_trace s).calls) =
        ((parse_call_trace s).calls.map fun n => splitNl (reindentMidMarker n)).join :=
      toLines_reconstructMid hwf hempty
    have hnl2 : ∀ l ∈ ((parse_call_trace s).calls.map fun n =>
        splitNl (reindentMidMarker n)).join, ('\n' : Char) ∉ l := by
      intro l hl
      rw [List.mem_join] at hl
      obtain ⟨L, hL, hlL⟩ := hl
      rw [List.mem_map] at hL
      obtain ⟨n, _, rfl⟩ := hL
      exact splitNl_no_nl _ l hlL
    have hk := parseLines_keys _ hnl2
    have hcalls : (parse_call_trace (reconstructMidMarker (parse_call_trace s).calls)).calls =
        parseLines (toLines (reconstructMidMarker (parse_call_trace s).calls)) := rfl
    rw [hcalls, htl]
    have hfst : ∀ L : List CallNode, L.map CallNode.depth = (L.map nodeKey).map Prod.fst := by
      intro L
      rw [List.map_map]
      rfl
    rw [hfst, hk, List.map_map,
      show (Prod.fst ∘ lineKey) = code_depth from rfl]
    exact reconLines_depths hwf

/-- Claim C10: `format_ether`, `format_gwei` and `calculate_gas_cost` are
total (no panic) exactly on amounts fitting 128 bits: every amount below
`2^128` formats to `some` string, every amount at or above `2^128` hits the
`as_u128` panic, and the total cost is produced whenever the saturated
`gasUsed * effectiveGasPrice` product fits 128 bits. -/
theorem c10_totality :
    (∀ w : ℕ, w < 2 ^ 128 → (format_ether w).isSome ∧ (format_gwei w).isSome) ∧
      (∀ w : ℕ, 2 ^ 128 ≤ w → format_ether w = none ∧ format_gwei w = none) ∧
      (∀ (rcpt : TransactionReceipt) (g p : ℕ), rcpt.gasUsed = some g →
        rcpt.effectiveGasPrice = some p → u256SaturatingMul g p < 2 ^ 128 →
        (calculate_gas_cost rcpt).isSome) := by
  refine ⟨fun w hw => ?_, fun w hw => ?_, fun rcpt g p hg hp hlt => ?_⟩
  · unfold format_ether format_gwei as_u128
    rw [if_pos hw]
    exact ⟨rfl, rfl⟩
  · unfold format_ether format_gwei as_u128
    rw [if_neg (not_lt.mpr hw)]
    exact ⟨rfl, rfl⟩
  · unfold calculate_gas_cost
    rw [hg, hp]
    show (format_ether (u256SaturatingMul g p)).isSome = true
    unfold format_ether as_u128
    rw [if_pos hlt]
    rfl

/-- Witness for C10 at concrete inputs on both sides of the `2^128` bound. -/
theorem c10_witness :
    (format_ether 1).isSome ∧ format_ether (2 ^ 128) = none ∧
      (calculate_gas_cost ⟨none, none, some 21000, some 1000000000, []⟩).isSome :=
  ⟨(c10_totality.1 1 (by decide)).1, (c10_totality.2.1 (2 ^ 128) (le_refl _)).1,
    c10_totality.2.2 _ 21000 1000000000 rfl rfl (by decide)⟩

end Raliet
